import Mathlib

/-!
MazeGenerator: clamping, Randomize and the breadth-first pathfinder.

A shallow embedding of `Source/MazeGenerator/Private/Maze.cpp`.

Modelling conventions.

* `int32` values are `Int`; values that the code only ever builds from `0`,
  array sizes, loop counters and additions (vertex numbers, distances) are `Nat`.
  Signed overflow is a fault: every product and sum that the source computes in
  `int32` passes through `int32` or `int32Signed`, which yield `Fault.overflow`
  outside the 32-bit range.  The theorems about grids assume fewer than `2^31`
  cells, the range in which the vertex numbers `Y * Width + X` fit; it contains
  every size that `FMazeSize` admits (`ClampMax=9999` on both axes in Maze.h).
* `TArray<T>` is `List T`; `uint8` cells are `Nat`, a cell is passable when it
  is non-zero (the C++ truthiness test).
* Every `operator[]` is a checked access: an index outside `[0, Num)` yields
  `Fault.outOfRange`.  Loops that have no syntactic bound in the source (the
  queue loop and the parent walk) take a fuel argument and report
  `Fault.outOfFuel` when it runs out.
-/

namespace MazeGenerator

/-- Ways in which the checked embedding can fail. -/
inductive Fault where
  | outOfRange
  | divByZero
  | overflow
  | outOfFuel
deriving DecidableEq

/-- Results of checked computations. -/
abbrev Checked (α : Type) := Except Fault α

/-- Grids are rows of cells: `TArray<TArray<uint8>>`. -/
abbrev Grid := List (List Nat)

/-- Maze size, `FMazeSize`. -/
structure FMazeSize where
  X : Int
  Y : Int
deriving DecidableEq

/-- Maze coordinates, `FMazeCoordinates`. -/
structure FMazeCoordinates where
  X : Int
  Y : Int
deriving DecidableEq

/-- Embedding of `FMazeCoordinates::ClampByMazeSize` (Maze.cpp lines 34-44):
the mutated receiver is returned. -/
def FMazeCoordinates.ClampByMazeSize (c : FMazeCoordinates) (MazeSize : FMazeSize) :
    FMazeCoordinates :=
  let c1 : FMazeCoordinates := if c.X ≥ MazeSize.X then ⟨MazeSize.X - 1, c.Y⟩ else c
  if c1.Y ≥ MazeSize.Y then ⟨c1.X, MazeSize.Y - 1⟩ else c1

/-- The generation strategies, `EGenerationAlgorithm`. -/
inductive EGenerationAlgorithm where
  | Backtracker
  | Division
  | HaK
  | Sidewinder
  | Kruskal
  | Eller
  | Prim
deriving DecidableEq

/-- The fields of `AMaze` that `Randomize` reads or writes. -/
structure AMaze where
  GenerationAlgorithm : EGenerationAlgorithm
  Seed : Int
  MazeSize : FMazeSize
  PathStart : FMazeCoordinates
  PathEnd : FMazeCoordinates
deriving DecidableEq

/-- Outcomes of the four `FMath::RandRange` calls of `Randomize`, in call order. -/
structure RandomDraws where
  SizeX : Nat
  SizeY : Nat
  AlgorithmIndex : Nat
  Seed : Int

/-- Keys of `GenerationAlgorithms` in the order the constructor adds them. -/
def GenerationAlgorithmKeys : List EGenerationAlgorithm :=
  [.Backtracker, .Division, .HaK, .Sidewinder, .Kruskal, .Eller, .Prim]

/-- Embedding of `AMaze::Randomize` (Maze.cpp lines 365-382) up to the call of
`UpdateMaze`: the state that is handed over.  Line 377 assigns `PathStart.X` a
second time; no statement assigns `PathStart.Y`. -/
def Randomize (m : AMaze) (r : RandomDraws) : AMaze :=
  let SizeX : Int := ((r.SizeX ||| 1 : Nat) : Int)
  let SizeY : Int := ((r.SizeY ||| 1 : Nat) : Int)
  let Algorithm := GenerationAlgorithmKeys.getD r.AlgorithmIndex m.GenerationAlgorithm
  let PathStart1 : FMazeCoordinates := ⟨0, m.PathStart.Y⟩
  let PathStart2 : FMazeCoordinates := ⟨0, PathStart1.Y⟩
  let PathEnd1 : FMazeCoordinates := ⟨SizeX - 1, m.PathEnd.Y⟩
  let PathEnd2 : FMazeCoordinates := ⟨PathEnd1.X, SizeY - 1⟩
  ⟨Algorithm, r.Seed, ⟨SizeX, SizeY⟩, PathStart2, PathEnd2⟩

/-- Checked read `A[i]`. -/
def getAt {α : Type} (A : List α) (i : Nat) : Checked α :=
  match A[i]? with
  | some a => .ok a
  | none => .error .outOfRange

/-- Checked write `A[i] = a`. -/
def setAt {α : Type} (A : List α) (i : Nat) (a : α) : Checked (List α) :=
  if i < A.length then .ok (A.set i a) else .error .outOfRange

/-- A non-negative `int32` result: a value of `2^31` or more does not fit. -/
def int32 (n : Nat) : Checked Nat :=
  if n < 2 ^ 31 then .ok n else .error .overflow

/-- A signed `int32` result: a value outside `[-2^31, 2^31)` does not fit. -/
def int32Signed (n : Int) : Checked Int :=
  if -(2 ^ 31) ≤ n ∧ n < 2 ^ 31 then .ok n else .error .overflow

/-- An `int32` used as an index: negative values are out of range. -/
def toIndex (i : Int) : Checked Nat :=
  if 0 ≤ i then .ok i.toNat else .error .outOfRange

/-- Checked read `MazeGrid[Y][X]`. -/
def cellAt (MazeGrid : Grid) (Y X : Nat) : Checked Nat := do
  let row ← getAt MazeGrid Y
  getAt row X

/-- The statement `Graph[GraphVertex].Emplace(n)`. -/
def emplaceEdge (Graph : List (List Nat)) (GraphVertex n : Nat) : Checked (List (List Nat)) := do
  let entry ← getAt Graph GraphVertex
  setAt Graph GraphVertex (entry ++ [n])

/-- One direction test of the graph creation: `if (guard && MazeGrid[NY][NX])
Graph[GraphVertex].Emplace(n)`; the cell is read only when the guard holds, and the
neighbour's vertex number `n` is computed, in `int32`, only when the cell is open. -/
def emplaceIfOpen (MazeGrid : Grid) (guard : Bool) (NY NX : Nat)
    (Graph : List (List Nat)) (GraphVertex n : Nat) : Checked (List (List Nat)) :=
  if guard then do
    let c ← cellAt MazeGrid NY NX
    if c ≠ 0 then do
      let Neighbour ← int32 n
      emplaceEdge Graph GraphVertex Neighbour
    else pure Graph
  else pure Graph

/-- Body of the inner loop of the graph creation (Maze.cpp lines 191-218). -/
def graphCell (MazeGrid : Grid) (Y X : Nat) (Graph : List (List Nat)) :
    Checked (List (List Nat)) := do
  let rowY ← getAt MazeGrid Y
  let rowStart ← int32 (Y * rowY.length)
  let GraphVertex ← int32 (rowStart + X)
  let Graph1 := Graph ++ [[]]
  let c ← getAt rowY X
  if c = 0 then
    pure Graph1
  else do
    let _ ← getAt Graph1 GraphVertex
    let Graph2 ← emplaceIfOpen MazeGrid (decide (X > 0)) Y (X - 1) Graph1 GraphVertex
      (GraphVertex - 1)
    let XEast ← int32 (X + 1)
    let Graph3 ← emplaceIfOpen MazeGrid (decide (XEast < rowY.length)) Y XEast Graph2
      GraphVertex (GraphVertex + 1)
    let Graph4 ← emplaceIfOpen MazeGrid (decide (Y > 0)) (Y - 1) X Graph3 GraphVertex
      (GraphVertex - rowY.length)
    let YSouth ← int32 (Y + 1)
    let Graph5 ← emplaceIfOpen MazeGrid (decide (YSouth < MazeGrid.length)) YSouth X Graph4
      GraphVertex (GraphVertex + rowY.length)
    let _ ← getAt Graph5 GraphVertex
    pure Graph5

/-- The loop over `X` for one row `Y` (Maze.cpp line 189). -/
def graphRow (MazeGrid : Grid) (Y : Nat) (Graph : List (List Nat)) :
    Checked (List (List Nat)) := do
  let rowY ← getAt MazeGrid Y
  (List.range rowY.length).foldlM (fun G X => graphCell MazeGrid Y X G) Graph

/-- The graph creation loop (Maze.cpp lines 186-220). -/
def buildGraph (MazeGrid : Grid) : Checked (List (List Nat)) :=
  (List.range MazeGrid.length).foldlM (fun G Y => graphRow MazeGrid Y G) []

/-- Working state of the breadth-first search. -/
structure BfsState where
  Vertices : List Nat
  Visited : List Bool
  Parents : List Int
  Distances : List Nat

/-- Body of the loop over `Graph[Vertex]` (Maze.cpp lines 246-252). -/
def visitAdjacent (Vertex : Nat) (st : BfsState) (Adjacent : Nat) : Checked BfsState := do
  let seen ← getAt st.Visited Adjacent
  if seen then
    pure st
  else do
    let Visited ← setAt st.Visited Adjacent true
    let dVertex ← getAt st.Distances Vertex
    let dAdjacent ← int32 (dVertex + 1)
    let Distances ← setAt st.Distances Adjacent dAdjacent
    let Parents ← setAt st.Parents Adjacent (Vertex : Int)
    pure ⟨st.Vertices ++ [Adjacent], Visited, Parents, Distances⟩

/-- The queue loop `while (Vertices.Dequeue(Vertex))` (Maze.cpp lines 242-254); each
unit of fuel pays for one dequeue. -/
def bfsLoop (Graph : List (List Nat)) : Nat → BfsState → Checked BfsState
  | 0, st =>
    match st.Vertices with
    | [] => .ok st
    | _ :: _ => .error .outOfFuel
  | fuel + 1, st =>
    match st.Vertices with
    | [] => .ok st
    | Vertex :: rest => do
      let entry ← getAt Graph Vertex
      let st1 ← entry.foldlM (visitAdjacent Vertex)
        ⟨rest, st.Visited, st.Parents, st.Distances⟩
      bfsLoop Graph fuel st1

/-- The parent walk `for (VertexNumber = EndVertex; VertexNumber != -1; VertexNumber =
Parents[VertexNumber])` (Maze.cpp lines 263-266); each unit of fuel pays for one
iteration. -/
def walkParents (Parents : List Int) : Nat → Int → List Nat → Checked (List Nat)
  | 0, VertexNumber, GraphPath =>
    if VertexNumber = -1 then .ok GraphPath else .error .outOfFuel
  | fuel + 1, VertexNumber, GraphPath =>
    if VertexNumber = -1 then .ok GraphPath
    else do
      let i ← toIndex VertexNumber
      let next ← getAt Parents i
      walkParents Parents fuel next (GraphPath ++ [i])

/-- The statement `Path[V / W0][V % W0] = 1` (Maze.cpp line 281), `W0` being
`MazeGrid[0].Num()`. -/
def markCell (W0 : Nat) (Path : Grid) (VertexNumber : Nat) : Checked Grid :=
  if W0 = 0 then .error .divByZero
  else do
    let row ← getAt Path (VertexNumber / W0)
    let row1 ← setAt row (VertexNumber % W0) 1
    setAt Path (VertexNumber / W0) row1

/-- Embedding of `AMaze::GetMazePath` (Maze.cpp lines 180-287).  The member `MazeGrid`
and the initial value of the reference `OutLength` are arguments; the returned pair is
the path grid and the final value of `OutLength`.  The first `int32` check is the
argument of `Graph.Reserve` (line 183), the last one `Distances[EndVertex] + 1`
(line 285). -/
def GetMazePath (MazeGrid : Grid) (Start End : FMazeCoordinates) (OutLength : Int) :
    Checked (Grid × Int) := do
  let row0 ← getAt MazeGrid 0
  let _ ← int32 (MazeGrid.length * row0.length)
  let Graph ← buildGraph MazeGrid
  let StartRow ← int32Signed (Start.Y * (row0.length : Int))
  let StartVertex ← int32Signed (StartRow + Start.X)
  let EndRow ← int32Signed (End.Y * (row0.length : Int))
  let EndVertex ← int32Signed (EndRow + End.X)
  let VerticesAmount ← int32 (MazeGrid.length * row0.length)
  let Visited0 := List.replicate VerticesAmount false
  let Parents0 := List.replicate VerticesAmount (-1 : Int)
  let Distances0 := List.replicate VerticesAmount (0 : Nat)
  let s ← toIndex StartVertex
  let Visited1 ← setAt Visited0 s true
  let st ← bfsLoop Graph VerticesAmount ⟨[s], Visited1, Parents0, Distances0⟩
  let e ← toIndex EndVertex
  let endVisited ← getAt st.Visited e
  if !endVisited then
    pure ([], OutLength)
  else do
    let GraphPath0 ← walkParents st.Parents VerticesAmount EndVertex []
    let GraphPath := GraphPath0.reverse
    let Path0 : Grid := MazeGrid.map (fun row => List.replicate row.length 0)
    let Path ← GraphPath.foldlM (markCell row0.length) Path0
    let dEnd ← getAt st.Distances e
    let Length ← int32 (dEnd + 1)
    pure (Path, (Length : Int))

/-- Value of the cell in row `Y`, column `X`; `0` outside the grid. -/
def cell (g : Grid) (Y X : Nat) : Nat := (g.getD Y []).getD X 0

/-- Closed form of the adjacency entry of the cell in row `Y`, column `X` of a grid of
width `W` and height `H`. -/
def adjEntryAt (g : Grid) (W H Y X : Nat) : List Nat :=
  if cell g Y X = 0 then []
  else
    (((([] ++ if decide (X > 0) = true ∧ cell g Y (X - 1) ≠ 0 then [Y * W + X - 1] else [])
      ++ if decide (X + 1 < W) = true ∧ cell g Y (X + 1) ≠ 0 then [Y * W + X + 1] else [])
      ++ if decide (Y > 0) = true ∧ cell g (Y - 1) X ≠ 0 then [Y * W + X - W] else [])
      ++ if decide (Y + 1 < H) = true ∧ cell g (Y + 1) X ≠ 0 then [Y * W + X + W] else [])

/-- Closed form of the adjacency entry of vertex `i`. -/
def adjEntry (g : Grid) (W H i : Nat) : List Nat := adjEntryAt g W H (i / W) (i % W)

/-- Number of rows of a grid, `MazeGrid.Num()`. -/
def Height (g : Grid) : Nat := g.length

/-- Length of row 0, `MazeGrid[0].Num()`. -/
def Width (g : Grid) : Nat := (g.getD 0 []).length

/-- Non-empty rectangular grid: there is a row 0, it has at least one cell, and every row
has its length. -/
def Rectangular (g : Grid) : Prop :=
  0 < Height g ∧ 0 < Width g ∧ ∀ row ∈ g, row.length = Width g


/-- Edge relation of an adjacency list: `v` occurs in `Graph[u]`. -/
def edgeOf (G : List (List Nat)) (u v : Nat) : Prop := v ∈ G.getD u []

/-- Invariant of the breadth-first search for source `s` over `N` vertices, stated for the
queue contents `Q` and the arrays `Visited`, `Parents`, `Distances`. -/
structure BfsInv (G : List (List Nat)) (N s : Nat) (Q : List Nat) (V : List Bool)
    (P : List Int) (D : List Nat) : Prop where
  lenV : V.length = N
  lenP : P.length = N
  lenD : D.length = N
  visS : V.getD s false = true
  dS : D.getD s 0 = 0
  pS : P.getD s (-1) = -1
  qVis : ∀ q ∈ Q, V.getD q false = true
  qSorted : Q.Pairwise (fun a b => D.getD a 0 ≤ D.getD b 0 ∧ D.getD b 0 ≤ D.getD a 0 + 1)
  parent : ∀ v, V.getD v false = true → v ≠ s →
    ∃ u : Nat, P.getD v (-1) = (u : Int) ∧ V.getD u false = true ∧ edgeOf G u v ∧
      D.getD v 0 = D.getD u 0 + 1
  closed : ∀ u, V.getD u false = true → u ∉ Q → ∀ v, edgeOf G u v → V.getD v false = true
  edge : ∀ u v, V.getD u false = true → V.getD v false = true → edgeOf G u v →
    D.getD v 0 ≤ D.getD u 0 + 1
  bound : ∀ v q, V.getD v false = true → q ∈ Q → D.getD v 0 ≤ D.getD q 0 + 1

/-- Termination measure of the queue loop: unvisited vertices plus queued vertices. -/
def bfsMeasure (st : BfsState) : Nat := st.Visited.count false + st.Vertices.length

/-- Number of cells of a path grid that hold `1`. -/
def markedCount (P : Grid) : Nat := (P.map (List.count 1)).sum

/-- Invariant of the marking loop: `P` is a `W` by `H` grid whose cells hold `1` exactly
at the vertices listed in `marked`. -/
structure PathInv (W H : Nat) (marked : List Nat) (P : Grid) : Prop where
  rows : P.length = H
  cols : ∀ row ∈ P, row.length = W
  marks : ∀ Y X, Y < H → X < W → cell P Y X = if Y * W + X ∈ marked then 1 else 0
  count : markedCount P = marked.length

/-- The cell lies inside the grid: `0 <= X < width` and `0 <= Y < height`. -/
def InGrid (g : Grid) (c : FMazeCoordinates) : Prop :=
  0 ≤ c.X ∧ c.X < (Width g : Int) ∧ 0 ≤ c.Y ∧ c.Y < (Height g : Int)

/-- Value stored at a cell of the grid. -/
def cellValue (g : Grid) (c : FMazeCoordinates) : Nat := cell g c.Y.toNat c.X.toNat

/-- A passable cell: inside the grid and non-zero. -/
def Passable (g : Grid) (c : FMazeCoordinates) : Prop := InGrid g c ∧ cellValue g c ≠ 0

/-- Two cells are 4-directional neighbours. -/
def Adjacent4 (a b : FMazeCoordinates) : Prop :=
  (a.Y = b.Y ∧ (a.X + 1 = b.X ∨ b.X + 1 = a.X)) ∨
  (a.X = b.X ∧ (a.Y + 1 = b.Y ∨ b.Y + 1 = a.Y))

/-- A chain `c0 = S, c1, ..., ck = E` of passable cells in which consecutive cells are
4-directional neighbours. -/
def IsChain (g : Grid) (S E : FMazeCoordinates) (l : List FMazeCoordinates) : Prop :=
  l.head? = some S ∧ l.getLast? = some E ∧ l.Chain' Adjacent4 ∧ ∀ c ∈ l, Passable g c

/-- Row-major vertex number `Y * width + X` of a cell. -/
def vertexOf (g : Grid) (c : FMazeCoordinates) : Nat := c.Y.toNat * Width g + c.X.toNat

/-- The cell with a given row-major vertex number. -/
def cellOf (g : Grid) (v : Nat) : FMazeCoordinates :=
  ⟨((v % Width g : Nat) : Int), ((v / Width g : Nat) : Int)⟩

/-- The adjacency list of a grid in closed form. -/
def graphOf (g : Grid) : List (List Nat) :=
  (List.range (Height g * Width g)).map (adjEntry g (Width g) (Height g))

instance (g : Grid) (c : FMazeCoordinates) : Decidable (InGrid g c) := by
  unfold InGrid; infer_instance

instance (g : Grid) (c : FMazeCoordinates) : Decidable (Passable g c) := by
  unfold Passable; infer_instance

instance (a b : FMazeCoordinates) : Decidable (Adjacent4 a b) := by
  unfold Adjacent4; infer_instance

instance (g : Grid) (S E : FMazeCoordinates) (l : List FMazeCoordinates) :
    Decidable (IsChain g S E l) := by
  unfold IsChain; infer_instance

instance (g : Grid) : Decidable (Rectangular g) := by
  unfold Rectangular; infer_instance

/-- Description of a result of `GetMazePath` whose search reached `E`: `path` is a grid of
the size of `g` that marks exactly the cells of `chain`, a repetition-free sequence of
neighbouring cells from `S` to `E` which no chain of passable cells undercuts. -/
structure ReachedResult (g : Grid) (S E : FMazeCoordinates) (path : Grid)
    (chain : List FMazeCoordinates) : Prop where
  head : chain.head? = some S
  last : chain.getLast? = some E
  adjacent : chain.Chain' Adjacent4
  nodup : chain.Nodup
  inGrid : ∀ c ∈ chain, InGrid g c
  passable : ∀ c ∈ chain, c ≠ S → Passable g c
  startPassable : S ≠ E → Passable g S
  single : S = E → chain = [S]
  pathRows : path.length = Height g
  pathCols : ∀ row ∈ path, row.length = Width g
  pathMarks : ∀ c, InGrid g c → cellValue path c = if c ∈ chain then 1 else 0
  pathCount : markedCount path = chain.length
  shortest : ∀ l, IsChain g S E l → chain.length ≤ l.length

/-! Lemmas and the theorems of the claims. -/

theorem ok_bind {α β : Type} (a : α) (f : α → Checked β) :
    ((Except.ok a : Checked α) >>= f) = f a := rfl

theorem getAt_getD {α : Type} (A : List α) (i : Nat) (d : α) (h : i < A.length) :
    getAt A i = .ok (A.getD i d) := by
  unfold getAt
  rw [List.getD_eq_getElem?_getD, List.getElem?_eq_getElem h]
  rfl

theorem getAt_append_length {α : Type} (A : List α) (a : α) :
    getAt (A ++ [a]) A.length = .ok a := by
  unfold getAt
  simp

theorem setAt_append_length {α : Type} (A : List α) (a b : α) :
    setAt (A ++ [a]) A.length b = .ok (A ++ [b]) := by
  unfold setAt
  simp

theorem emplaceEdge_last (pre : List (List Nat)) (e : List Nat) (n : Nat) :
    emplaceEdge (pre ++ [e]) pre.length n = .ok (pre ++ [e ++ [n]]) := by
  unfold emplaceEdge
  rw [getAt_append_length]
  exact setAt_append_length pre e (e ++ [n])

theorem rect_row_length {g : Grid} (hr : Rectangular g) {Y : Nat} (hY : Y < Height g) :
    (g.getD Y []).length = Width g := by
  apply hr.2.2
  unfold Height at hY
  rw [List.getD_eq_getElem?_getD, List.getElem?_eq_getElem hY]
  exact List.getElem_mem hY

theorem cellAt_rect {g : Grid} (hr : Rectangular g) {Y X : Nat} (hY : Y < Height g)
    (hX : X < Width g) : cellAt g Y X = .ok (cell g Y X) := by
  unfold cellAt cell
  rw [getAt_getD g Y [] hY]
  have hl := rect_row_length hr hY
  exact getAt_getD _ X 0 (by omega)

theorem int32_ok {n : Nat} (h : n < 2 ^ 31) : int32 n = .ok n := by
  unfold int32
  rw [if_pos h]

theorem int32Signed_cast {n : Nat} (h : n < 2 ^ 31) :
    int32Signed (n : Int) = .ok (n : Int) := by
  unfold int32Signed
  rw [if_pos (by constructor <;> omega)]

theorem row_major_lt {W H Y X : Nat} (hY : Y < H) (hX : X < W) : Y * W + X < H * W := by
  have h1 : (Y + 1) * W ≤ H * W := Nat.mul_le_mul_right W hY
  rw [Nat.succ_mul] at h1
  omega

theorem emplaceIfOpen_last {g : Grid} (hr : Rectangular g) (guard : Bool) (NY NX : Nat)
    (pre : List (List Nat)) (e : List Nat) (n : Nat)
    (hin : guard = true → NY < Height g ∧ NX < Width g ∧ n < 2 ^ 31) :
    emplaceIfOpen g guard NY NX (pre ++ [e]) pre.length n
      = .ok (pre ++ [e ++ if guard = true ∧ cell g NY NX ≠ 0 then [n] else []]) := by
  unfold emplaceIfOpen
  cases guard with
  | false => simp; rfl
  | true =>
    obtain ⟨h1, h2, h3⟩ := hin rfl
    simp only [if_true, true_and]
    rw [cellAt_rect hr h1 h2]
    by_cases hc : cell g NY NX = 0
    · simp [hc]; rfl
    · simp only [ok_bind, ne_eq, hc, not_false_eq_true, if_true]
      rw [int32_ok h3, ok_bind]
      exact emplaceEdge_last pre e n

theorem graphCell_rect {g : Grid} (hr : Rectangular g) (hB : Height g * Width g < 2 ^ 31)
    {Y X : Nat} (hY : Y < Height g)
    (hX : X < Width g) (pre : List (List Nat)) (hpre : pre.length = Y * Width g + X) :
    graphCell g Y X pre = .ok (pre ++ [adjEntryAt g (Width g) (Height g) Y X]) := by
  have hl := rect_row_length hr hY
  have hv : Y * Width g + X < Height g * Width g := row_major_lt hY hX
  have hHle : Height g ≤ Height g * Width g := Nat.le_mul_of_pos_right _ hr.2.1
  unfold graphCell
  rw [getAt_getD g Y [] hY]
  simp only [ok_bind, hl]
  rw [int32_ok (by omega : Y * Width g < 2 ^ 31), ok_bind,
    int32_ok (by omega : Y * Width g + X < 2 ^ 31), ok_bind]
  rw [getAt_getD (g.getD Y []) X 0 (by omega)]
  simp only [ok_bind]
  have hc : (g.getD Y []).getD X 0 = cell g Y X := rfl
  rw [hc, ← hpre]
  by_cases h0 : cell g Y X = 0
  · simp [h0, adjEntryAt]; rfl
  · simp only [h0, if_false]
    rw [getAt_append_length, ok_bind]
    rw [emplaceIfOpen_last hr _ _ _ pre [] _ (by
      intro h; simp at h; refine ⟨?_, ?_, ?_⟩ <;> omega)]
    rw [ok_bind, int32_ok (by omega : X + 1 < 2 ^ 31), ok_bind]
    rw [emplaceIfOpen_last hr _ _ _ pre _ _ (by
      intro h; simp at h
      have := row_major_lt hY h
      refine ⟨?_, ?_, ?_⟩ <;> omega)]
    rw [ok_bind]
    rw [emplaceIfOpen_last hr _ _ _ pre _ _ (by
      intro h; simp at h; refine ⟨?_, ?_, ?_⟩ <;> omega)]
    rw [ok_bind, int32_ok (by omega : Y + 1 < 2 ^ 31), ok_bind]
    rw [emplaceIfOpen_last hr _ _ _ pre _ _ (by
      intro h; simp at h
      have h2 : Y + 1 < Height g := h
      have := row_major_lt h2 hX
      rw [Nat.succ_mul] at this
      exact ⟨h2, hX, by omega⟩)]
    rw [ok_bind, getAt_append_length, ok_bind]
    simp only [adjEntryAt, h0, if_false, hpre]
    rfl

theorem div_row_major {W : Nat} (Y X : Nat) (hX : X < W) : (Y * W + X) / W = Y := by
  have hW : 0 < W := by omega
  rw [Nat.add_comm, Nat.add_mul_div_right _ _ hW, Nat.div_eq_of_lt hX]
  omega

theorem mod_row_major {W : Nat} (Y X : Nat) (hX : X < W) : (Y * W + X) % W = X := by
  rw [Nat.add_comm, Nat.add_mul_mod_self_right, Nat.mod_eq_of_lt hX]

theorem adjEntry_row_major (g : Grid) {W : Nat} (H Y X : Nat) (hX : X < W) :
    adjEntry g W H (Y * W + X) = adjEntryAt g W H Y X := by
  unfold adjEntry
  rw [div_row_major Y X hX, mod_row_major Y X hX]

theorem graphRow_fold {g : Grid} (hr : Rectangular g) (hB : Height g * Width g < 2 ^ 31)
    {Y : Nat} (hY : Y < Height g) :
    ∀ n, n ≤ Width g →
      (List.range n).foldlM (fun G X => graphCell g Y X G)
          ((List.range (Y * Width g)).map (adjEntry g (Width g) (Height g)))
        = (.ok ((List.range (Y * Width g + n)).map (adjEntry g (Width g) (Height g))) :
            Checked (List (List Nat))) := by
  intro n
  induction n with
  | zero => intro _; rfl
  | succ n ih =>
    intro hn
    rw [List.range_succ, List.foldlM_append, ih (by omega)]
    simp only [List.foldlM_cons, List.foldlM_nil]
    rw [show (pure : _ → Checked _) = Except.ok from rfl, ok_bind,
      graphCell_rect hr hB hY (by omega) _ (by simp)]
    rw [ok_bind, ← adjEntry_row_major g (Height g) Y n (by omega),
      ← Nat.add_assoc, List.range_succ (Y * Width g + n), List.map_append]
    rfl

theorem graphRow_rect {g : Grid} (hr : Rectangular g) (hB : Height g * Width g < 2 ^ 31)
    {Y : Nat} (hY : Y < Height g) :
    graphRow g Y ((List.range (Y * Width g)).map (adjEntry g (Width g) (Height g)))
      = .ok ((List.range ((Y + 1) * Width g)).map (adjEntry g (Width g) (Height g))) := by
  unfold graphRow
  rw [getAt_getD g Y [] hY, ok_bind, rect_row_length hr hY, graphRow_fold hr hB hY _ (le_refl _)]
  rw [Nat.succ_mul]

theorem buildGraph_fold {g : Grid} (hr : Rectangular g) (hB : Height g * Width g < 2 ^ 31) :
    ∀ m, m ≤ Height g →
      (List.range m).foldlM (fun G Y => graphRow g Y G) []
        = (.ok ((List.range (m * Width g)).map (adjEntry g (Width g) (Height g))) :
            Checked (List (List Nat))) := by
  intro m
  induction m with
  | zero => intro _; simp; rfl
  | succ m ih =>
    intro hm
    rw [List.range_succ, List.foldlM_append, ih (by omega)]
    simp only [List.foldlM_cons, List.foldlM_nil]
    rw [show (pure : _ → Checked _) = Except.ok from rfl, ok_bind,
      graphRow_rect hr hB (by omega), ok_bind]

theorem buildGraph_rect {g : Grid} (hr : Rectangular g) (hB : Height g * Width g < 2 ^ 31) :
    buildGraph g
      = .ok ((List.range (Height g * Width g)).map (adjEntry g (Width g) (Height g))) :=
  buildGraph_fold hr hB (Height g) (le_refl _)

theorem getD_set {α : Type} (l : List α) (i j : Nat) (a d : α) (h : i < l.length) :
    (l.set i a).getD j d = if j = i then a else l.getD j d := by
  simp only [List.getD_eq_getElem?_getD, List.getElem?_set]
  by_cases hij : i = j
  · subst hij; simp [h]
  · have : ¬ j = i := fun e => hij e.symm
    simp [hij, this]

theorem lt_of_getD_true (V : List Bool) (v : Nat) (h : V.getD v false = true) :
    v < V.length := by
  by_contra hn
  rw [List.getD_eq_getElem?_getD, List.getElem?_eq_none (by omega)] at h
  cases h

theorem BfsInv.visit {G : List (List Nat)} {N s x a : Nat} {Q : List Nat} {V : List Bool}
    {P : List Int} {D : List Nat} (inv : BfsInv G N s (x :: Q) V P D)
    (hxa : edgeOf G x a) (haN : a < N) (hna : V.getD a false = false) :
    BfsInv G N s (x :: (Q ++ [a])) (V.set a true) (P.set a (x : Int))
      (D.set a (D.getD x 0 + 1)) := by
  have hV : ∀ v, (V.set a true).getD v false = if v = a then true else V.getD v false :=
    fun v => getD_set V a v true false (by rw [inv.lenV]; exact haN)
  have hP : ∀ v, (P.set a (x : Int)).getD v (-1) = if v = a then (x : Int) else P.getD v (-1) :=
    fun v => getD_set P a v _ _ (by rw [inv.lenP]; exact haN)
  have hD : ∀ v, (D.set a (D.getD x 0 + 1)).getD v 0
      = if v = a then D.getD x 0 + 1 else D.getD v 0 :=
    fun v => getD_set D a v _ _ (by rw [inv.lenD]; exact haN)
  have hne : ∀ v, V.getD v false = true → v ≠ a := by
    intro v hv e; rw [e, hna] at hv; cases hv
  have hxv : V.getD x false = true := inv.qVis x (List.mem_cons_self _ _)
  have hxne : x ≠ a := hne x hxv
  have hsort := List.pairwise_cons.mp inv.qSorted
  have hQx : ∀ q ∈ x :: Q, D.getD x 0 ≤ D.getD q 0 ∧ D.getD q 0 ≤ D.getD x 0 + 1 := by
    intro q hq
    rcases List.mem_cons.mp hq with e | hq
    · subst e; omega
    · exact hsort.1 q hq
  refine ⟨by simp [inv.lenV], by simp [inv.lenP], by simp [inv.lenD], ?_, ?_, ?_, ?_, ?_, ?_,
    ?_, ?_, ?_⟩
  · rw [hV, if_neg (hne s inv.visS)]; exact inv.visS
  · rw [hD, if_neg (hne s inv.visS)]; exact inv.dS
  · rw [hP, if_neg (hne s inv.visS)]; exact inv.pS
  · intro q hq
    rw [hV]
    by_cases e : q = a
    · simp [e]
    · rw [if_neg e]
      apply inv.qVis
      rw [← List.cons_append] at hq
      rcases List.mem_append.mp hq with h | h
      · exact h
      · simp at h; exact absurd h e
  · rw [← List.cons_append, List.pairwise_append]
    refine ⟨?_, List.pairwise_singleton _ _, ?_⟩
    · refine List.Pairwise.imp_of_mem ?_ inv.qSorted
      intro p q hp hq h
      rw [hD, hD, if_neg (hne p (inv.qVis p hp)), if_neg (hne q (inv.qVis q hq))]
      exact h
    · intro p hp q hq
      simp at hq
      subst hq
      rw [hD, hD, if_neg (hne p (inv.qVis p hp)), if_pos rfl]
      have := hQx p hp
      omega
  · intro v hv hvs
    rw [hV] at hv
    by_cases e : v = a
    · subst e
      refine ⟨x, ?_, ?_, hxa, ?_⟩
      · rw [hP, if_pos rfl]
      · rw [hV, if_neg hxne]; exact hxv
      · rw [hD, hD, if_pos rfl, if_neg hxne]
    · rw [if_neg e] at hv
      obtain ⟨u, h1, h2, h3, h4⟩ := inv.parent v hv hvs
      refine ⟨u, ?_, ?_, h3, ?_⟩
      · rw [hP, if_neg e]; exact h1
      · rw [hV, if_neg (hne u h2)]; exact h2
      · rw [hD, hD, if_neg e, if_neg (hne u h2)]; exact h4
  · intro u hu hnq v huv
    rw [hV] at hu ⊢
    have hua : u ≠ a := by
      intro e; apply hnq; rw [e]; simp
    rw [if_neg hua] at hu
    by_cases e : v = a
    · simp [e]
    · rw [if_neg e]
      refine inv.closed u hu ?_ v huv
      intro hm
      apply hnq
      rw [← List.cons_append]
      exact List.mem_append_left _ hm
  · intro u v hu hv huv
    rw [hV] at hu hv
    rw [hD, hD]
    by_cases eu : u = a
    · by_cases ev : v = a
      · rw [if_pos eu, if_pos ev]; omega
      · rw [if_pos eu, if_neg ev]
        rw [if_neg ev] at hv
        have := inv.bound v x hv (List.mem_cons_self _ _)
        omega
    · rw [if_neg eu] at hu
      by_cases ev : v = a
      · rw [if_neg eu, if_pos ev]
        subst ev
        have hin : u ∈ x :: Q := by
          by_contra hnot
          have := inv.closed u hu hnot v huv
          rw [hna] at this; cases this
        have := hQx u hin
        omega
      · rw [if_neg eu, if_neg ev]
        rw [if_neg ev] at hv
        exact inv.edge u v hu hv huv
  · intro v q hv hq
    rw [hV] at hv
    rw [hD, hD]
    rw [← List.cons_append] at hq
    rcases List.mem_append.mp hq with hq | hq
    · have hqa : q ≠ a := hne q (inv.qVis q hq)
      rw [if_neg hqa]
      by_cases ev : v = a
      · rw [if_pos ev]
        have := hQx q hq
        omega
      · rw [if_neg ev]
        rw [if_neg ev] at hv
        exact inv.bound v q hv hq
    · simp at hq
      rw [if_pos hq]
      by_cases ev : v = a
      · rw [if_pos ev]; omega
      · rw [if_neg ev]
        rw [if_neg ev] at hv
        have := inv.bound v x hv (List.mem_cons_self _ _)
        omega

theorem BfsInv.dequeue {G : List (List Nat)} {N s x : Nat} {Q : List Nat} {V : List Bool}
    {P : List Int} {D : List Nat} (inv : BfsInv G N s (x :: Q) V P D)
    (hx : ∀ v, edgeOf G x v → V.getD v false = true) : BfsInv G N s Q V P D := by
  refine ⟨inv.lenV, inv.lenP, inv.lenD, inv.visS, inv.dS, inv.pS, ?_, ?_, inv.parent, ?_,
    inv.edge, ?_⟩
  · intro q hq; exact inv.qVis q (List.mem_cons_of_mem _ hq)
  · exact (List.pairwise_cons.mp inv.qSorted).2
  · intro u hu hnq v huv
    by_cases e : u = x
    · subst e; exact hx v huv
    · apply inv.closed u hu _ v huv
      intro hm
      rcases List.mem_cons.mp hm with h | h
      · exact e h
      · exact hnq h
  · intro v q hv hq; exact inv.bound v q hv (List.mem_cons_of_mem _ hq)

theorem count_false_set (V : List Bool) (a : Nat) (ha : a < V.length)
    (h : V.getD a false = false) : (V.set a true).count false + 1 = V.count false := by
  have hget : V[a] = false := by
    rw [List.getD_eq_getElem?_getD, List.getElem?_eq_getElem ha] at h
    simpa using h
  rw [List.count_set true false V a ha, hget]
  have hpos : 0 < V.count false := by
    rw [List.count_pos_iff]
    rw [← hget]
    exact List.getElem_mem ha
  simp
  omega

/-- The parent walk from a visited vertex `v` succeeds and lists the vertices of a
breadth-first tree branch from `v` down to the source. -/
theorem BfsInv.walkParents_spec {G : List (List Nat)} {N s : Nat} {Q : List Nat}
    {V : List Bool} {P : List Int} {D : List Nat} (inv : BfsInv G N s Q V P D) :
    ∀ (n v : Nat), V.getD v false = true → D.getD v 0 = n →
      ∀ (fuel : Nat), n + 1 ≤ fuel → ∀ acc : List Nat,
      ∃ r : List Nat, walkParents P fuel (v : Int) acc = .ok (acc ++ r) ∧
        r.head? = some v ∧ r.getLast? = some s ∧
        r.Chain' (fun a b => edgeOf G b a ∧ D.getD b 0 < D.getD a 0) ∧
        r.length = n + 1 ∧ ∀ x ∈ r, V.getD x false = true := by
  intro n
  induction n with
  | zero =>
    intro v hv hd fuel hf acc
    have hvs : v = s := by
      by_contra hne
      obtain ⟨u, _, _, _, h4⟩ := inv.parent v hv hne
      omega
    subst hvs
    obtain ⟨fuel, rfl⟩ : ∃ k, fuel = k + 1 := ⟨fuel - 1, by omega⟩
    have hvN : v < P.length := by
      have := lt_of_getD_true _ _ hv
      rw [inv.lenV] at this; rw [inv.lenP]; exact this
    refine ⟨[v], ?_, rfl, rfl, List.chain'_singleton _, rfl, ?_⟩
    · unfold walkParents
      rw [if_neg (by omega)]
      unfold toIndex
      rw [if_pos (by omega), ok_bind, Int.toNat_ofNat, getAt_getD P v (-1) hvN, ok_bind,
        inv.pS]
      cases fuel <;> rfl
    · intro x hx; simp at hx; rw [hx]; exact hv
  | succ n ih =>
    intro v hv hd fuel hf acc
    have hvs : v ≠ s := by
      intro e; rw [e, inv.dS] at hd; omega
    obtain ⟨u, h1, h2, h3, h4⟩ := inv.parent v hv hvs
    obtain ⟨fuel, rfl⟩ : ∃ k, fuel = k + 1 := ⟨fuel - 1, by omega⟩
    have hvN : v < P.length := by
      have := lt_of_getD_true _ _ hv
      rw [inv.lenV] at this; rw [inv.lenP]; exact this
    obtain ⟨r, hr1, hr2, hr3, hr4, hr5, hr6⟩ :=
      ih u h2 (by omega) fuel (by omega) (acc ++ [v])
    refine ⟨v :: r, ?_, rfl, ?_, ?_, by simp [hr5], ?_⟩
    · unfold walkParents
      rw [if_neg (by omega)]
      unfold toIndex
      rw [if_pos (by omega), ok_bind, Int.toNat_ofNat, getAt_getD P v (-1) hvN, ok_bind,
        h1, hr1]
      simp
    · cases r with
      | nil => cases hr2
      | cons b t => rw [List.getLast?_cons_cons]; exact hr3
    · cases r with
      | nil => cases hr2
      | cons b t =>
        simp at hr2
        subst hr2
        exact List.chain'_cons.mpr ⟨⟨h3, by omega⟩, hr4⟩
    · intro x hx
      rcases List.mem_cons.mp hx with e | hx
      · rw [e]; exact hv
      · exact hr6 x hx

theorem branch_nodup {G : List (List Nat)} {D : List Nat} (r : List Nat)
    (h : r.Chain' (fun a b => edgeOf G b a ∧ D.getD b 0 < D.getD a 0)) : r.Nodup := by
  have h1 : r.Chain' (fun a b => D.getD b 0 < D.getD a 0) := h.imp (fun _ _ hab => hab.2)
  haveI : IsTrans Nat (fun a b => D.getD b 0 < D.getD a 0) :=
    ⟨fun _ _ _ hab hbc => lt_trans hbc hab⟩
  have h2 := List.chain'_iff_pairwise.mp h1
  exact h2.imp (fun hab e => by rw [e] at hab; exact lt_irrefl _ hab)

theorem nodup_length_le (r : List Nat) (N : Nat) (hn : r.Nodup) (hb : ∀ x ∈ r, x < N) :
    r.length ≤ N := by
  have h1 : r.toFinset ⊆ Finset.range N := by
    intro x hx
    rw [List.mem_toFinset] at hx
    exact Finset.mem_range.mpr (hb x hx)
  have h2 := Finset.card_le_card h1
  rw [List.toFinset_card_of_nodup hn, Finset.card_range] at h2
  exact h2

/-- Distances of visited vertices stay below the number of vertices. -/
theorem BfsInv.dist_lt {G : List (List Nat)} {N s : Nat} {Q : List Nat} {V : List Bool}
    {P : List Int} {D : List Nat} (inv : BfsInv G N s Q V P D) {v : Nat}
    (hv : V.getD v false = true) : D.getD v 0 + 1 ≤ N := by
  obtain ⟨r, _, _, _, hr4, hr5, hr6⟩ := inv.walkParents_spec _ v hv rfl _ (le_refl _) []
  rw [← hr5]
  refine nodup_length_le r _ (branch_nodup r hr4) ?_
  intro x hx
  have := lt_of_getD_true _ _ (hr6 x hx)
  rw [inv.lenV] at this
  exact this

theorem visitAdjacent_seen (x a : Nat) (st : BfsState)
    (h : st.Visited.getD a false = true) : visitAdjacent x st a = .ok st := by
  have ha := lt_of_getD_true _ _ h
  unfold visitAdjacent
  rw [getAt_getD st.Visited a false ha, ok_bind, h]
  rfl

theorem visitAdjacent_new (x a N : Nat) (st : BfsState) (lenV : st.Visited.length = N)
    (lenP : st.Parents.length = N) (lenD : st.Distances.length = N) (hx : x < N)
    (ha : a < N) (h : st.Visited.getD a false = false)
    (hd : st.Distances.getD x 0 + 1 < 2 ^ 31) :
    visitAdjacent x st a = .ok ⟨st.Vertices ++ [a], st.Visited.set a true,
      st.Parents.set a (x : Int), st.Distances.set a (st.Distances.getD x 0 + 1)⟩ := by
  unfold visitAdjacent
  rw [getAt_getD st.Visited a false (by omega), ok_bind, h]
  simp only [Bool.false_eq_true, if_false]
  unfold setAt
  rw [if_pos (by omega), ok_bind, getAt_getD st.Distances x 0 (by omega), ok_bind,
    int32_ok hd, ok_bind, if_pos (by omega), ok_bind, if_pos (by omega), ok_bind]
  rfl

theorem visit_fold {G : List (List Nat)} {N s x : Nat} (hN : N < 2 ^ 31)
    (hG : ∀ u v, edgeOf G u v → v < N) :
    ∀ (l : List Nat) (st : BfsState), (∀ a ∈ l, edgeOf G x a) →
      BfsInv G N s (x :: st.Vertices) st.Visited st.Parents st.Distances →
      ∃ st1, l.foldlM (visitAdjacent x) st = .ok st1 ∧
        BfsInv G N s (x :: st1.Vertices) st1.Visited st1.Parents st1.Distances ∧
        (∀ v, st.Visited.getD v false = true → st1.Visited.getD v false = true) ∧
        (∀ a ∈ l, st1.Visited.getD a false = true) ∧
        bfsMeasure st1 = bfsMeasure st := by
  intro l
  induction l with
  | nil =>
    intro st _ inv
    exact ⟨st, rfl, inv, fun _ h => h, by simp, rfl⟩
  | cons a l ih =>
    intro st hl inv
    have hxa : edgeOf G x a := hl a (List.mem_cons_self _ _)
    have haN : a < N := hG x a hxa
    have hxN : x < N := by
      have := lt_of_getD_true _ _ (inv.qVis x (List.mem_cons_self _ _))
      rw [inv.lenV] at this; exact this
    rw [List.foldlM_cons]
    by_cases hseen : st.Visited.getD a false = true
    · rw [visitAdjacent_seen x a st hseen, ok_bind]
      obtain ⟨st1, h1, h2, h3, h4, h5⟩ := ih st (fun b hb => hl b (List.mem_cons_of_mem _ hb)) inv
      refine ⟨st1, h1, h2, h3, ?_, h5⟩
      intro b hb
      rcases List.mem_cons.mp hb with e | hb
      · rw [e]; exact h3 a hseen
      · exact h4 b hb
    · have hna : st.Visited.getD a false = false := by
        cases hb : st.Visited.getD a false
        · rfl
        · exact absurd hb hseen
      have hd := inv.dist_lt (inv.qVis x (List.mem_cons_self _ _))
      rw [visitAdjacent_new x a N st inv.lenV inv.lenP inv.lenD hxN haN hna (by omega),
        ok_bind]
      have inv1 := inv.visit hxa haN hna
      obtain ⟨st1, h1, h2, h3, h4, h5⟩ :=
        ih ⟨st.Vertices ++ [a], st.Visited.set a true, st.Parents.set a (x : Int),
          st.Distances.set a (st.Distances.getD x 0 + 1)⟩
          (fun b hb => hl b (List.mem_cons_of_mem _ hb)) inv1
      have hVa : ∀ v, (st.Visited.set a true).getD v false
          = if v = a then true else st.Visited.getD v false :=
        fun v => getD_set st.Visited a v true false (by rw [inv.lenV]; exact haN)
      refine ⟨st1, h1, h2, ?_, ?_, ?_⟩
      · intro v hv
        apply h3
        show (st.Visited.set a true).getD v false = true
        rw [hVa]
        by_cases e : v = a
        · rw [if_pos e]
        · rw [if_neg e]; exact hv
      · intro b hb
        rcases List.mem_cons.mp hb with e | hb
        · rw [e]
          apply h3
          show (st.Visited.set a true).getD a false = true
          rw [hVa, if_pos rfl]
        · exact h4 b hb
      · rw [h5]
        unfold bfsMeasure
        have := count_false_set st.Visited a (by rw [inv.lenV]; exact haN) hna
        simp only [List.length_append, List.length_singleton]
        omega

theorem bfsLoop_inv {G : List (List Nat)} {N s : Nat} (hN : N < 2 ^ 31)
    (hlen : G.length = N) (hG : ∀ u v, edgeOf G u v → v < N) :
    ∀ (fuel : Nat) (st : BfsState),
      BfsInv G N s st.Vertices st.Visited st.Parents st.Distances →
      bfsMeasure st ≤ fuel →
      ∃ st1, bfsLoop G fuel st = .ok st1 ∧
        BfsInv G N s [] st1.Visited st1.Parents st1.Distances := by
  intro fuel
  induction fuel with
  | zero =>
    intro st inv hm
    have hq : st.Vertices = [] := by
      unfold bfsMeasure at hm
      apply List.eq_nil_of_length_eq_zero
      omega
    refine ⟨st, ?_, ?_⟩
    · unfold bfsLoop; rw [hq]
    · rw [hq] at inv; exact inv
  | succ fuel ih =>
    intro st inv hm
    cases hq : st.Vertices with
    | nil =>
      refine ⟨st, ?_, ?_⟩
      · unfold bfsLoop; rw [hq]
      · rw [hq] at inv; exact inv
    | cons x rest =>
      rw [hq] at inv
      have hxN : x < G.length := by
        have := lt_of_getD_true _ _ (inv.qVis x (List.mem_cons_self _ _))
        rw [inv.lenV] at this; omega
      obtain ⟨st1, h1, h2, _, h4, h5⟩ :=
        visit_fold hN hG (G.getD x []) ⟨rest, st.Visited, st.Parents, st.Distances⟩
          (fun a ha => ha) inv
      have inv1 := h2.dequeue (fun v hv => h4 v hv)
      have hm1 : bfsMeasure st1 ≤ fuel := by
        rw [h5]
        unfold bfsMeasure at hm ⊢
        rw [hq] at hm
        simp only [List.length_cons] at hm
        show st.Visited.count false + rest.length ≤ fuel
        omega
      obtain ⟨st2, h6, h7⟩ := ih st1 inv1 hm1
      refine ⟨st2, ?_, h7⟩
      unfold bfsLoop
      rw [hq]
      simp only
      rw [getAt_getD G x [] hxN, ok_bind, h1, ok_bind]
      exact h6

theorem getD_replicate {α : Type} (n i : Nat) (a : α) : (List.replicate n a).getD i a = a := by
  rw [List.getD_eq_getElem?_getD, List.getElem?_replicate]
  by_cases h : i < n <;> simp [h]

theorem BfsInv.start (G : List (List Nat)) (N s : Nat) (hs : s < N) :
    BfsInv G N s [s] ((List.replicate N false).set s true) (List.replicate N (-1 : Int))
      (List.replicate N (0 : Nat)) := by
  have hV : ∀ v, ((List.replicate N false).set s true).getD v false = true → v = s := by
    intro v hv
    rw [getD_set _ s v true false (by simp; exact hs)] at hv
    by_cases e : v = s
    · exact e
    · rw [if_neg e, getD_replicate] at hv; cases hv
  have hVs : ((List.replicate N false).set s true).getD s false = true := by
    rw [getD_set _ s s true false (by simp; exact hs), if_pos rfl]
  refine ⟨by simp, by simp, by simp, hVs, getD_replicate _ _ _, getD_replicate _ _ _, ?_,
    List.pairwise_singleton _ _, ?_, ?_, ?_, ?_⟩
  · intro q hq
    simp at hq
    rw [hq]; exact hVs
  · intro v hv hne
    exact absurd (hV v hv) hne
  · intro u hu hnq
    exact absurd (by rw [hV u hu]; simp) hnq
  · intro u v _ _ _
    rw [getD_replicate, getD_replicate]; omega
  · intro v q _ _
    rw [getD_replicate, getD_replicate]; omega

theorem bfsMeasure_init (N s : Nat) (hs : s < N) :
    bfsMeasure ⟨[s], (List.replicate N false).set s true, List.replicate N (-1 : Int),
      List.replicate N (0 : Nat)⟩ = N := by
  unfold bfsMeasure
  have h := count_false_set (List.replicate N false) s (by simp; exact hs)
    (getD_replicate _ _ _)
  simp only [List.length_singleton]
  rw [h, List.count_replicate_self]

/-- Every walk that starts at a visited vertex ends at a visited vertex whose distance is
bounded by the walk. -/
theorem BfsInv.walk_bound {G : List (List Nat)} {N s : Nat} {V : List Bool} {P : List Int}
    {D : List Nat} (inv : BfsInv G N s [] V P D) :
    ∀ (l : List Nat) (u w : Nat), V.getD u false = true → l.Chain' (edgeOf G) →
      l.head? = some u → l.getLast? = some w →
      V.getD w false = true ∧ D.getD w 0 + 1 ≤ D.getD u 0 + l.length := by
  intro l
  induction l with
  | nil => intro u w _ _ hh _; cases hh
  | cons a t ih =>
    intro u w hu hc hh hl
    simp at hh
    subst hh
    cases t with
    | nil =>
      simp at hl
      subst hl
      exact ⟨hu, by simp⟩
    | cons b t =>
      have hab : edgeOf G a b := (List.chain'_cons.mp hc).1
      have hb : V.getD b false = true := inv.closed a hu (by simp) b hab
      have hd := inv.edge a b hu hb hab
      have hl2 : (b :: t).getLast? = some w := by
        rw [List.getLast?_cons_cons] at hl; exact hl
      obtain ⟨h1, h2⟩ := ih b w hb (List.chain'_cons.mp hc).2 rfl hl2
      refine ⟨h1, ?_⟩
      simp only [List.length_cons] at h2 ⊢
      omega

theorem sum_map_set {α : Type} (f : α → Nat) :
    ∀ (P : List α) (r : Nat) (a : α) (h : r < P.length),
      ((P.set r a).map f).sum + f (P[r]) = (P.map f).sum + f a := by
  intro P
  induction P with
  | nil => intro r a h; simp at h
  | cons b t ih =>
    intro r a h
    cases r with
    | zero => simp; omega
    | succ r =>
      simp only [List.set_cons_succ, List.map_cons, List.sum_cons, List.getElem_cons_succ]
      have := ih r a (by simpa using h)
      omega

theorem row_major_eq {W : Nat} (Y X v : Nat) (hX : X < W) :
    Y * W + X = v ↔ Y = v / W ∧ X = v % W := by
  constructor
  · intro h
    subst h
    rw [div_row_major Y X hX, mod_row_major Y X hX]
    exact ⟨rfl, rfl⟩
  · rintro ⟨h1, h2⟩
    rw [h1, h2, Nat.mul_comm]
    exact Nat.div_add_mod v W

theorem PathInv.mark {W H : Nat} {marked : List Nat} {P : Grid} (inv : PathInv W H marked P)
    (hW : 0 < W) (v : Nat) (hv : v < H * W) (hnew : v ∉ marked) :
    ∃ P1, markCell W P v = .ok P1 ∧ PathInv W H (marked ++ [v]) P1 := by
  have hr : v / W < H := by
    rw [Nat.div_lt_iff_lt_mul hW]; exact hv
  have hc : v % W < W := Nat.mod_lt _ hW
  have hrP : v / W < P.length := by rw [inv.rows]; exact hr
  have hrow : (P.getD (v / W) []).length = W := by
    apply inv.cols
    rw [List.getD_eq_getElem?_getD, List.getElem?_eq_getElem hrP]
    exact List.getElem_mem hrP
  have hrowEq : P.getD (v / W) [] = P[v / W] := by
    rw [List.getD_eq_getElem?_getD, List.getElem?_eq_getElem hrP]; rfl
  have hzero : cell P (v / W) (v % W) = 0 := by
    rw [inv.marks _ _ hr hc, if_neg]
    rw [Nat.mul_comm, Nat.div_add_mod]
    exact hnew
  refine ⟨P.set (v / W) ((P.getD (v / W) []).set (v % W) 1), ?_, ?_, ?_, ?_, ?_⟩
  · unfold markCell
    rw [if_neg (by omega), getAt_getD P (v / W) [] hrP, ok_bind]
    unfold setAt
    rw [if_pos (by omega), ok_bind, if_pos hrP]
  · simp [inv.rows]
  · intro row hrow1
    rcases List.mem_or_eq_of_mem_set hrow1 with h | h
    · exact inv.cols row h
    · rw [h, List.length_set]; exact hrow
  · intro Y X hY hX
    unfold cell
    rw [getD_set P (v / W) Y _ [] hrP]
    by_cases e : Y = v / W
    · rw [if_pos e, getD_set _ (v % W) X 1 0 (by omega)]
      by_cases e2 : X = v % W
      · rw [if_pos e2, if_pos]
        apply List.mem_append_right
        rw [List.mem_singleton]
        exact (row_major_eq Y X v hX).mpr ⟨e, e2⟩
      · rw [if_neg e2]
        have := inv.marks Y X hY hX
        unfold cell at this
        rw [e] at this ⊢
        rw [this]
        have hne : ¬ (v / W * W + X = v) := fun h =>
          e2 ((row_major_eq (v / W) X v hX).mp h).2
        simp [hne]
    · rw [if_neg e]
      have := inv.marks Y X hY hX
      unfold cell at this
      rw [this]
      have hne : ¬ (Y * W + X = v) := fun h => e ((row_major_eq Y X v hX).mp h).1
      simp [hne]
  · have hcl : v % W < (P.getD (v / W) []).length := by omega
    have h3 : (P.getD (v / W) [])[v % W] = 0 := by
      unfold cell at hzero
      rw [List.getD_eq_getElem?_getD (P.getD (v / W) []),
        List.getElem?_eq_getElem hcl] at hzero
      simpa using hzero
    have h2 : List.count 1 ((P.getD (v / W) []).set (v % W) 1)
        = List.count 1 (P.getD (v / W) []) + 1 := by
      rw [List.count_set (1 : Nat) 1 (P.getD (v / W) []) (v % W) hcl, h3]
      simp
    have h1 : ((P.set (v / W) ((P.getD (v / W) []).set (v % W) 1)).map (List.count 1)).sum
        + List.count 1 (P.getD (v / W) [])
        = (P.map (List.count 1)).sum
          + List.count 1 ((P.getD (v / W) []).set (v % W) 1) := by
      rw [hrowEq]
      exact sum_map_set (List.count 1) P (v / W) _ hrP
    have h4 : (P.map (List.count 1)).sum = marked.length := inv.count
    show ((P.set (v / W) ((P.getD (v / W) []).set (v % W) 1)).map (List.count 1)).sum
      = (marked ++ [v]).length
    rw [List.length_append, List.length_singleton]
    omega

theorem PathInv.fold {W H : Nat} (hW : 0 < W) :
    ∀ (l marked : List Nat) (P : Grid), PathInv W H marked P → (∀ v ∈ l, v < H * W) →
      (marked ++ l).Nodup →
      ∃ P1, l.foldlM (markCell W) P = .ok P1 ∧ PathInv W H (marked ++ l) P1 := by
  intro l
  induction l with
  | nil =>
    intro marked P inv _ _
    exact ⟨P, rfl, by rw [List.append_nil]; exact inv⟩
  | cons v l ih =>
    intro marked P inv hb hn
    have hnew : v ∉ marked := by
      intro hm
      have := List.nodup_append.mp hn
      exact this.2.2 hm (List.mem_cons_self _ _)
    obtain ⟨P1, h1, h2⟩ := inv.mark hW v (hb v (List.mem_cons_self _ _)) hnew
    obtain ⟨P2, h3, h4⟩ := ih (marked ++ [v]) P1 h2
      (fun x hx => hb x (List.mem_cons_of_mem _ hx)) (by simpa using hn)
    refine ⟨P2, ?_, by simpa using h4⟩
    rw [List.foldlM_cons, h1, ok_bind]
    exact h3

theorem mem_adjEntryAt (g : Grid) (W H Y X n : Nat) :
    n ∈ adjEntryAt g W H Y X ↔ cell g Y X ≠ 0 ∧
      ((0 < X ∧ cell g Y (X - 1) ≠ 0 ∧ n = Y * W + X - 1) ∨
       (X + 1 < W ∧ cell g Y (X + 1) ≠ 0 ∧ n = Y * W + X + 1) ∨
       (0 < Y ∧ cell g (Y - 1) X ≠ 0 ∧ n = Y * W + X - W) ∨
       (Y + 1 < H ∧ cell g (Y + 1) X ≠ 0 ∧ n = Y * W + X + W)) := by
  unfold adjEntryAt
  by_cases h0 : cell g Y X = 0
  · simp [h0]
  · simp only [h0, if_false, ne_eq, not_false_eq_true, true_and, List.nil_append,
      List.mem_append, decide_eq_true_eq, gt_iff_lt]
    constructor
    · rintro (((h | h) | h) | h)
      · split at h
        · rename_i hc; simp at h; exact Or.inl ⟨hc.1, hc.2, h⟩
        · simp at h
      · split at h
        · rename_i hc; simp at h; exact Or.inr (Or.inl ⟨hc.1, hc.2, h⟩)
        · simp at h
      · split at h
        · rename_i hc; simp at h; exact Or.inr (Or.inr (Or.inl ⟨hc.1, hc.2, h⟩))
        · simp at h
      · split at h
        · rename_i hc; simp at h; exact Or.inr (Or.inr (Or.inr ⟨hc.1, hc.2, h⟩))
        · simp at h
    · rintro (⟨h1, h2, h3⟩ | ⟨h1, h2, h3⟩ | ⟨h1, h2, h3⟩ | ⟨h1, h2, h3⟩)
      · left; left; left; rw [if_pos ⟨h1, h2⟩]; simp [h3]
      · left; left; right; rw [if_pos ⟨h1, h2⟩]; simp [h3]
      · left; right; rw [if_pos ⟨h1, h2⟩]; simp [h3]
      · right; rw [if_pos ⟨h1, h2⟩]; simp [h3]

theorem row_major_inj {W : Nat} {Y X Y1 X1 : Nat} (hX : X < W) (hX1 : X1 < W) :
    Y1 * W + X1 = Y * W + X ↔ Y1 = Y ∧ X1 = X := by
  constructor
  · intro h
    have h1 := (row_major_eq Y1 X1 (Y * W + X) hX1).mp h
    rw [div_row_major Y X hX, mod_row_major Y X hX] at h1
    exact h1
  · rintro ⟨rfl, rfl⟩; rfl

/-- Membership in the adjacency entry of the cell `(X, Y)`, for the vertex number of another
cell `(X1, Y1)` of the grid. -/
theorem mem_adjEntryAt_cell (g : Grid) {W H Y X Y1 X1 : Nat} (hX : X < W) (hX1 : X1 < W)
    (hY1 : Y1 < H) :
    (Y1 * W + X1) ∈ adjEntryAt g W H Y X ↔
      cell g Y X ≠ 0 ∧ cell g Y1 X1 ≠ 0 ∧
        ((Y1 = Y ∧ (X1 + 1 = X ∨ X + 1 = X1)) ∨ (X1 = X ∧ (Y1 + 1 = Y ∨ Y + 1 = Y1))) := by
  rw [mem_adjEntryAt]
  constructor
  · rintro ⟨h0, (⟨h1, h2, h3⟩ | ⟨h1, h2, h3⟩ | ⟨h1, h2, h3⟩ | ⟨h1, h2, h3⟩)⟩
    · have e : Y * W + X - 1 = Y * W + (X - 1) := by omega
      rw [e, row_major_inj (by omega) hX1] at h3
      obtain ⟨rfl, rfl⟩ := h3
      exact ⟨h0, h2, Or.inl ⟨rfl, Or.inl (by omega)⟩⟩
    · have e : Y * W + X + 1 = Y * W + (X + 1) := by omega
      rw [e, row_major_inj h1 hX1] at h3
      obtain ⟨rfl, rfl⟩ := h3
      exact ⟨h0, h2, Or.inl ⟨rfl, Or.inr rfl⟩⟩
    · obtain ⟨Y0, rfl⟩ : ∃ k, Y = k + 1 := ⟨Y - 1, by omega⟩
      have e : (Y0 + 1) * W + X - W = Y0 * W + X := by rw [Nat.succ_mul]; omega
      rw [e, row_major_inj hX hX1] at h3
      obtain ⟨rfl, rfl⟩ := h3
      exact ⟨h0, h2, Or.inr ⟨rfl, Or.inl rfl⟩⟩
    · have e : Y * W + X + W = (Y + 1) * W + X := by rw [Nat.succ_mul]; omega
      rw [e, row_major_inj hX hX1] at h3
      obtain ⟨rfl, rfl⟩ := h3
      exact ⟨h0, h2, Or.inr ⟨rfl, Or.inr rfl⟩⟩
  · rintro ⟨h0, h1, (⟨rfl, (h | h)⟩ | ⟨rfl, (h | h)⟩)⟩
    · refine ⟨h0, Or.inl ⟨by omega, ?_, by omega⟩⟩
      have e : X - 1 = X1 := by omega
      rw [e]; exact h1
    · subst h
      exact ⟨h0, Or.inr (Or.inl ⟨hX1, h1, by omega⟩)⟩
    · subst h
      refine ⟨h0, Or.inr (Or.inr (Or.inl ⟨by omega, h1, ?_⟩))⟩
      rw [Nat.succ_mul]; omega
    · subst h
      refine ⟨h0, Or.inr (Or.inr (Or.inr ⟨hY1, h1, ?_⟩))⟩
      rw [Nat.succ_mul]; omega

/-- Every member of an adjacency entry is the vertex number of a cell of the grid. -/
theorem adjEntryAt_lt (g : Grid) {W H Y X n : Nat} (hY : Y < H) (hX : X < W)
    (hn : n ∈ adjEntryAt g W H Y X) : n < H * W := by
  rw [mem_adjEntryAt] at hn
  obtain ⟨_, (⟨h1, _, h3⟩ | ⟨h1, _, h3⟩ | ⟨h1, _, h3⟩ | ⟨h1, _, h3⟩)⟩ := hn
  · have := row_major_lt hY hX; omega
  · have := row_major_lt hY h1; omega
  · have := row_major_lt hY hX; omega
  · have := row_major_lt h1 hX
    rw [Nat.succ_mul] at this; omega

theorem getD_map_range {α : Type} (f : Nat → α) (N i : Nat) (d : α) :
    ((List.range N).map f).getD i d = if i < N then f i else d := by
  rw [List.getD_eq_getElem?_getD]
  by_cases h : i < N
  · rw [List.getElem?_eq_getElem (by simp; exact h), if_pos h]
    simp
  · rw [List.getElem?_eq_none (by simp; omega), if_neg h]
    rfl

/-- The adjacency list of a rectangular grid in closed form. -/
theorem edgeOf_adjEntry (g : Grid) (W H u v : Nat) :
    edgeOf ((List.range (H * W)).map (adjEntry g W H)) u v ↔
      u < H * W ∧ v ∈ adjEntryAt g W H (u / W) (u % W) := by
  unfold edgeOf
  rw [getD_map_range]
  by_cases h : u < H * W
  · rw [if_pos h]; unfold adjEntry; simp [h]
  · rw [if_neg h]; simp [h]

theorem edgeOf_adjEntry_lt (g : Grid) {W H u v : Nat}
    (h : edgeOf ((List.range (H * W)).map (adjEntry g W H)) u v) : v < H * W := by
  rw [edgeOf_adjEntry] at h
  obtain ⟨hu, hv⟩ := h
  have hW : 0 < W := by
    rcases Nat.eq_zero_or_pos W with e | e
    · rw [e] at hu; simp at hu
    · exact e
  exact adjEntryAt_lt g ((Nat.div_lt_iff_lt_mul hW).mpr hu) (Nat.mod_lt _ hW) hv

theorem vertexOf_cast {g : Grid} {c : FMazeCoordinates} (hc : InGrid g c) :
    c.Y * (Width g : Int) + c.X = ((vertexOf g c : Nat) : Int) := by
  obtain ⟨h1, _, h3, _⟩ := hc
  unfold vertexOf
  push_cast
  rw [Int.toNat_of_nonneg h1, Int.toNat_of_nonneg h3]

theorem vertexOf_lt {g : Grid} {c : FMazeCoordinates} (hc : InGrid g c) :
    vertexOf g c < Height g * Width g := by
  obtain ⟨h1, h2, h3, h4⟩ := hc
  unfold vertexOf
  apply row_major_lt <;> omega

theorem PathInv.initial {g : Grid} (hr : Rectangular g) :
    PathInv (Width g) (Height g) [] (g.map (fun row => List.replicate row.length 0)) := by
  refine ⟨by simp [Height], ?_, ?_, ?_⟩
  · intro row hrow
    rw [List.mem_map] at hrow
    obtain ⟨r0, h1, rfl⟩ := hrow
    rw [List.length_replicate]
    exact hr.2.2 r0 h1
  · intro Y X hY hX
    unfold cell
    unfold Height at hY
    have h1 : (g.map (fun row => List.replicate row.length 0)).getD Y []
        = List.replicate (g[Y]).length 0 := by
      rw [List.getD_eq_getElem?_getD, List.getElem?_map, List.getElem?_eq_getElem hY]
      rfl
    rw [h1, getD_replicate]
    simp
  · unfold markedCount
    simp only [List.length_nil]
    apply List.sum_eq_zero
    intro n hn
    rw [List.mem_map] at hn
    obtain ⟨row, h1, rfl⟩ := hn
    rw [List.mem_map] at h1
    obtain ⟨r0, _, rfl⟩ := h1
    simp [List.count_replicate]

theorem rowStart_ok {g : Grid} {c : FMazeCoordinates} (hc : InGrid g c)
    (hB : Height g * Width g < 2 ^ 31) :
    int32Signed (c.Y * (Width g : Int)) = .ok (c.Y * (Width g : Int)) := by
  have hv := vertexOf_lt hc
  obtain ⟨_, _, h3, _⟩ := hc
  unfold vertexOf at hv
  have hy : c.Y = ((c.Y.toNat : Nat) : Int) := (Int.toNat_of_nonneg h3).symm
  have hp : c.Y * (Width g : Int) = ((c.Y.toNat * Width g : Nat) : Int) := by
    rw [Nat.cast_mul, ← hy]
  rw [hp]
  exact int32Signed_cast (by omega)

theorem vertex_ok {g : Grid} {c : FMazeCoordinates} (hc : InGrid g c)
    (hB : Height g * Width g < 2 ^ 31) :
    int32Signed (c.Y * (Width g : Int) + c.X) = .ok ((vertexOf g c : Nat) : Int) := by
  rw [vertexOf_cast hc]
  exact int32Signed_cast (lt_trans (vertexOf_lt hc) hB)

/-- What `GetMazePath` returns on a rectangular grid of fewer than `2^31` cells for
endpoints inside the grid, in terms of the final state of the breadth-first search over
the closed-form graph. -/
theorem GetMazePath_spec {g : Grid} (hr : Rectangular g) (hB : Height g * Width g < 2 ^ 31)
    {S E : FMazeCoordinates} (hS : InGrid g S) (hE : InGrid g E) (L : Int) :
    ∃ (V : List Bool) (P : List Int) (D : List Nat),
      BfsInv (graphOf g) (Height g * Width g) (vertexOf g S) [] V P D ∧
      ((V.getD (vertexOf g E) false = false ∧ GetMazePath g S E L = .ok ([], L)) ∨
       (V.getD (vertexOf g E) false = true ∧ ∃ (r : List Nat) (path : Grid),
          GetMazePath g S E L = .ok (path, ((D.getD (vertexOf g E) 0 + 1 : Nat) : Int)) ∧
          r.head? = some (vertexOf g E) ∧ r.getLast? = some (vertexOf g S) ∧
          r.Chain' (fun a b => edgeOf (graphOf g) b a ∧ D.getD b 0 < D.getD a 0) ∧
          r.length = D.getD (vertexOf g E) 0 + 1 ∧
          (∀ x ∈ r, V.getD x false = true) ∧
          PathInv (Width g) (Height g) r.reverse path)) := by
  have hH : 0 < g.length := hr.1
  have hsN := vertexOf_lt hS
  have heN := vertexOf_lt hE
  obtain ⟨st, hst, inv⟩ := bfsLoop_inv (G := graphOf g) (N := Height g * Width g)
    (s := vertexOf g S) hB (by simp [graphOf])
    (fun u v h => edgeOf_adjEntry_lt g h) (Height g * Width g)
    ⟨[vertexOf g S], (List.replicate (Height g * Width g) false).set (vertexOf g S) true,
      List.replicate (Height g * Width g) (-1 : Int),
      List.replicate (Height g * Width g) (0 : Nat)⟩
    (BfsInv.start _ _ _ hsN) (le_of_eq (bfsMeasure_init _ _ hsN))
  refine ⟨st.Visited, st.Parents, st.Distances, inv, ?_⟩
  have hW0 : (g.getD 0 []).length = Width g := rfl
  have hH0 : g.length = Height g := rfl
  have hidx : ∀ n : Nat, toIndex (n : Int) = .ok n := by
    intro n; unfold toIndex; rw [if_pos (by omega)]; rfl
  have hstart : setAt (List.replicate (Height g * Width g) false) (vertexOf g S) true
      = .ok ((List.replicate (Height g * Width g) false).set (vertexOf g S) true) := by
    unfold setAt; rw [if_pos (by simp; exact hsN)]
  have hgraph : buildGraph g = .ok (graphOf g) := buildGraph_rect hr hB
  have heV : vertexOf g E < st.Visited.length := by rw [inv.lenV]; exact heN
  by_cases hvis : st.Visited.getD (vertexOf g E) false = true
  · right
    refine ⟨hvis, ?_⟩
    have hallN : ∀ x, st.Visited.getD x false = true → x < Height g * Width g := by
      intro x hx
      have := lt_of_getD_true _ _ hx
      rw [inv.lenV] at this; exact this
    have hfuel : st.Distances.getD (vertexOf g E) 0 + 1 ≤ Height g * Width g := by
      obtain ⟨r, _, _, _, hr4, hr5, hr6⟩ :=
        inv.walkParents_spec _ (vertexOf g E) hvis rfl _ (le_refl _) []
      rw [← hr5]
      exact nodup_length_le r _ (branch_nodup r hr4) (fun x hx => hallN x (hr6 x hx))
    obtain ⟨r, hr1, hr2, hr3, hr4, hr5, hr6⟩ :=
      inv.walkParents_spec _ (vertexOf g E) hvis rfl _ hfuel []
    rw [List.nil_append] at hr1
    have hnd : ([] ++ r.reverse).Nodup := by
      rw [List.nil_append, List.nodup_reverse]; exact branch_nodup r hr4
    obtain ⟨path, hp1, hp2⟩ := PathInv.fold (H := Height g) hr.2.1 r.reverse [] _
      (PathInv.initial hr) (fun x hx => hallN x (hr6 x (List.mem_reverse.mp hx))) hnd
    rw [List.nil_append] at hp2
    refine ⟨r, path, ?_, hr2, hr3, hr4, hr5, hr6, hp2⟩
    unfold GetMazePath
    rw [getAt_getD g 0 [] hH, ok_bind]
    simp only [hW0, hH0]
    rw [int32_ok hB, ok_bind, hgraph, ok_bind, rowStart_ok hS hB, ok_bind, vertex_ok hS hB,
      ok_bind, rowStart_ok hE hB, ok_bind, vertex_ok hE hB, ok_bind, ok_bind, hidx, ok_bind,
      hstart, ok_bind, hst, ok_bind, hidx, ok_bind, getAt_getD st.Visited _ false heV,
      ok_bind, hvis]
    simp only [Bool.not_true, Bool.false_eq_true, if_false]
    rw [hr1, ok_bind, hp1, ok_bind,
      getAt_getD st.Distances _ 0 (by rw [inv.lenD]; exact heN), ok_bind,
      int32_ok (by omega : st.Distances.getD (vertexOf g E) 0 + 1 < 2 ^ 31), ok_bind]
    rfl
  · left
    have hvis2 : st.Visited.getD (vertexOf g E) false = false := by
      cases hb : st.Visited.getD (vertexOf g E) false
      · rfl
      · exact absurd hb hvis
    refine ⟨hvis2, ?_⟩
    unfold GetMazePath
    rw [getAt_getD g 0 [] hH, ok_bind]
    simp only [hW0, hH0]
    rw [int32_ok hB, ok_bind, hgraph, ok_bind, rowStart_ok hS hB, ok_bind, vertex_ok hS hB,
      ok_bind, rowStart_ok hE hB, ok_bind, vertex_ok hE hB, ok_bind, ok_bind, hidx, ok_bind,
      hstart, ok_bind, hst, ok_bind, hidx, ok_bind, getAt_getD st.Visited _ false heV,
      ok_bind, hvis2]
    rfl

theorem InGrid.exists_nat {g : Grid} {c : FMazeCoordinates} (hc : InGrid g c) :
    ∃ x y : Nat, c = ⟨(x : Int), (y : Int)⟩ ∧ x < Width g ∧ y < Height g := by
  obtain ⟨h1, h2, h3, h4⟩ := hc
  refine ⟨c.X.toNat, c.Y.toNat, ?_, by omega, by omega⟩
  rw [Int.toNat_of_nonneg h1, Int.toNat_of_nonneg h3]

theorem inGrid_cast (g : Grid) (x y : Nat) :
    InGrid g ⟨(x : Int), (y : Int)⟩ ↔ x < Width g ∧ y < Height g := by
  unfold InGrid
  simp only
  omega

theorem vertexOf_cast_nat (g : Grid) (x y : Nat) :
    vertexOf g ⟨(x : Int), (y : Int)⟩ = y * Width g + x := by
  simp [vertexOf]

theorem cellValue_cast (g : Grid) (x y : Nat) :
    cellValue g ⟨(x : Int), (y : Int)⟩ = cell g y x := by
  simp [cellValue]

theorem cellOf_vertexOf {g : Grid} {c : FMazeCoordinates} (hc : InGrid g c) :
    cellOf g (vertexOf g c) = c := by
  obtain ⟨x, y, rfl, hx, hy⟩ := hc.exists_nat
  rw [vertexOf_cast_nat]
  unfold cellOf
  rw [mod_row_major y x hx, div_row_major y x hx]

theorem inGrid_cellOf {g : Grid} {v : Nat} (hv : v < Height g * Width g) :
    InGrid g (cellOf g v) := by
  have hW : 0 < Width g := by
    rcases Nat.eq_zero_or_pos (Width g) with e | e
    · rw [e] at hv; simp at hv
    · exact e
  unfold cellOf
  rw [inGrid_cast]
  exact ⟨Nat.mod_lt _ hW, (Nat.div_lt_iff_lt_mul hW).mpr hv⟩

theorem vertexOf_cellOf (g : Grid) (v : Nat) : vertexOf g (cellOf g v) = v := by
  unfold cellOf
  rw [vertexOf_cast_nat, Nat.mul_comm]
  exact Nat.div_add_mod v (Width g)

theorem vertexOf_inj {g : Grid} {a b : FMazeCoordinates} (ha : InGrid g a) (hb : InGrid g b)
    (h : vertexOf g a = vertexOf g b) : a = b := by
  rw [← cellOf_vertexOf ha, ← cellOf_vertexOf hb, h]

theorem adjacent4_cast (x y x1 y1 : Nat) :
    Adjacent4 ⟨(x : Int), (y : Int)⟩ ⟨(x1 : Int), (y1 : Int)⟩ ↔
      ((y1 = y ∧ (x1 + 1 = x ∨ x + 1 = x1)) ∨ (x1 = x ∧ (y1 + 1 = y ∨ y + 1 = y1))) := by
  unfold Adjacent4
  simp only
  omega

/-- The closed-form graph has an edge between the vertices of two cells of the grid
exactly when the cells are passable 4-directional neighbours. -/
theorem edgeOf_cells {g : Grid} {a b : FMazeCoordinates} (ha : InGrid g a)
    (hb : InGrid g b) :
    edgeOf (graphOf g) (vertexOf g a) (vertexOf g b) ↔
      Adjacent4 a b ∧ Passable g a ∧ Passable g b := by
  have haN := vertexOf_lt ha
  obtain ⟨x, y, rfl, hx, hy⟩ := ha.exists_nat
  obtain ⟨x1, y1, rfl, hx1, hy1⟩ := hb.exists_nat
  unfold graphOf
  rw [edgeOf_adjEntry]
  unfold Passable
  rw [vertexOf_cast_nat, vertexOf_cast_nat, div_row_major y x hx, mod_row_major y x hx,
    mem_adjEntryAt_cell g hx hx1 hy1, adjacent4_cast, cellValue_cast, cellValue_cast]
  rw [vertexOf_cast_nat] at haN
  constructor
  · rintro ⟨_, h1, h2, h3⟩
    exact ⟨h3, ⟨ha, h1⟩, ⟨hb, h2⟩⟩
  · rintro ⟨h3, ⟨_, h1⟩, ⟨_, h2⟩⟩
    exact ⟨haN, h1, h2, h3⟩

/-- Every edge of the closed-form graph joins two passable neighbouring cells. -/
theorem edgeOf_graphOf {g : Grid} {u v : Nat} (h : edgeOf (graphOf g) u v) :
    Adjacent4 (cellOf g u) (cellOf g v) ∧ Passable g (cellOf g u) ∧
      Passable g (cellOf g v) := by
  have hv : v < Height g * Width g := edgeOf_adjEntry_lt g h
  have hu : u < Height g * Width g := ((edgeOf_adjEntry g _ _ u v).mp h).1
  have h2 := h
  rw [← vertexOf_cellOf g u, ← vertexOf_cellOf g v] at h2
  exact (edgeOf_cells (inGrid_cellOf hu) (inGrid_cellOf hv)).mp h2

/-- A chain of cells yields a walk of the same length in the closed-form graph. -/
theorem IsChain.walk {g : Grid} {S E : FMazeCoordinates} {l : List FMazeCoordinates}
    (h : IsChain g S E l) :
    (l.map (vertexOf g)).head? = some (vertexOf g S) ∧
      (l.map (vertexOf g)).getLast? = some (vertexOf g E) ∧
      (l.map (vertexOf g)).Chain' (edgeOf (graphOf g)) ∧
      (l.map (vertexOf g)).length = l.length := by
  obtain ⟨h1, h2, h3, h4⟩ := h
  refine ⟨by rw [List.head?_map, h1]; rfl, by rw [List.getLast?_map, h2]; rfl, ?_, by simp⟩
  rw [List.chain'_map]
  refine (List.Chain'.iff_mem.mp h3).imp ?_
  rintro a b ⟨ha, hb, hab⟩
  exact (edgeOf_cells (h4 a ha).1 (h4 b hb).1).mpr ⟨hab, h4 a ha, h4 b hb⟩

/-- When some vertex other than the source is visited, the source has an outgoing edge. -/
theorem BfsInv.source_edge {G : List (List Nat)} {N s : Nat} {Q : List Nat} {V : List Bool}
    {P : List Int} {D : List Nat} (inv : BfsInv G N s Q V P D) :
    ∀ (n v : Nat), D.getD v 0 = n → V.getD v false = true → v ≠ s → ∃ w, edgeOf G s w := by
  intro n
  induction n with
  | zero =>
    intro v hd hv hne
    obtain ⟨u, _, _, _, h4⟩ := inv.parent v hv hne
    omega
  | succ n ih =>
    intro v hd hv hne
    obtain ⟨u, _, h2, h3, h4⟩ := inv.parent v hv hne
    by_cases e : u = s
    · rw [e] at h3; exact ⟨v, h3⟩
    · exact ih u (by omega) h2 e

/-- On a grid with a row 0 and `2^31` or more cells the product
`MazeGrid.Num() * MazeGrid[0].Num()` of Maze.cpp line 183 does not fit `int32`: the
embedding reports the overflow. -/
theorem GetMazePath_overflow (g : Grid) (S E : FMazeCoordinates) (L : Int)
    (hH : 0 < Height g) (hB : 2 ^ 31 ≤ Height g * Width g) :
    GetMazePath g S E L = .error .overflow := by
  unfold GetMazePath
  rw [getAt_getD g 0 [] hH, ok_bind]
  have hW0 : (g.getD 0 []).length = Width g := rfl
  have hH0 : g.length = Height g := rfl
  simp only [hW0, hH0]
  unfold int32
  rw [if_neg (by omega)]
  rfl

/-- The two outcomes of `GetMazePath` on a rectangular grid of fewer than `2^31` cells
with endpoints inside it. -/
theorem GetMazePath_cases {g : Grid} (hr : Rectangular g) (hB : Height g * Width g < 2 ^ 31)
    {S E : FMazeCoordinates} (hS : InGrid g S) (hE : InGrid g E) (L : Int) :
    (GetMazePath g S E L = .ok ([], L) ∧ S ≠ E ∧ ∀ l, ¬ IsChain g S E l) ∨
    (∃ (path : Grid) (chain : List FMazeCoordinates),
      GetMazePath g S E L = .ok (path, (chain.length : Int)) ∧
      ReachedResult g S E path chain) := by
  obtain ⟨V, P, D, inv, hcase⟩ := GetMazePath_spec hr hB hS hE L
  have hbound : ∀ l, IsChain g S E l →
      V.getD (vertexOf g E) false = true ∧ D.getD (vertexOf g E) 0 + 1 ≤ l.length := by
    intro l hl
    obtain ⟨w1, w2, w3, w4⟩ := hl.walk
    have := inv.walk_bound _ _ _ inv.visS w3 w1 w2
    rw [inv.dS, w4] at this
    exact ⟨this.1, by omega⟩
  rcases hcase with ⟨hnv, hres⟩ | ⟨hv, r, path, hres, hr1, hr2, hr3, hr4, hr5, hp⟩
  · left
    refine ⟨hres, ?_, ?_⟩
    · intro e
      rw [← e, inv.visS] at hnv
      cases hnv
    · intro l hl
      rw [(hbound l hl).1] at hnv
      cases hnv
  · right
    have hallN : ∀ x ∈ r, x < Height g * Width g := by
      intro x hx
      have := lt_of_getD_true _ _ (hr5 x hx)
      rw [inv.lenV] at this; exact this
    have hlen : (r.reverse.map (cellOf g)).length = D.getD (vertexOf g E) 0 + 1 := by
      rw [List.length_map, List.length_reverse, hr4]
    have hmem : ∀ c, InGrid g c →
        (c ∈ r.reverse.map (cellOf g) ↔ vertexOf g c ∈ r.reverse) := by
      intro c hc
      rw [List.mem_map]
      constructor
      · rintro ⟨v, hv1, rfl⟩
        rw [vertexOf_cellOf]; exact hv1
      · intro h
        exact ⟨vertexOf g c, h, cellOf_vertexOf hc⟩
    refine ⟨path, r.reverse.map (cellOf g), ?_, ?_⟩
    · rw [hres, hlen]
    · refine ⟨?_, ?_, ?_, ?_, ?_, ?_, ?_, ?_, hp.rows, hp.cols, ?_, ?_, ?_⟩
      · rw [List.head?_map, List.head?_reverse, hr2]
        simp [cellOf_vertexOf hS]
      · rw [List.getLast?_map, List.getLast?_reverse, hr1]
        simp [cellOf_vertexOf hE]
      · rw [List.chain'_map, List.chain'_reverse]
        refine hr3.imp ?_
        intro a b hab
        exact (edgeOf_graphOf hab.1).1
      · apply List.Nodup.map
        · intro a b hab
          have := congrArg (vertexOf g) hab
          rw [vertexOf_cellOf, vertexOf_cellOf] at this
          exact this
        · rw [List.nodup_reverse]
          exact branch_nodup r hr3
      · intro c hc
        rw [List.mem_map] at hc
        obtain ⟨v, hv1, rfl⟩ := hc
        exact inGrid_cellOf (hallN v (List.mem_reverse.mp hv1))
      · intro c hc hne
        rw [List.mem_map] at hc
        obtain ⟨v, hv1, rfl⟩ := hc
        have hvs : v ≠ vertexOf g S := by
          intro e
          apply hne
          rw [e, cellOf_vertexOf hS]
        obtain ⟨u, _, _, h3, _⟩ := inv.parent v (hr5 v (List.mem_reverse.mp hv1)) hvs
        exact (edgeOf_graphOf h3).2.2
      · intro hne
        have hes : vertexOf g E ≠ vertexOf g S := by
          intro e
          exact hne (vertexOf_inj hE hS e).symm
        obtain ⟨w, hw⟩ := inv.source_edge _ _ rfl hv hes
        have := (edgeOf_graphOf hw).2.1
        rw [cellOf_vertexOf hS] at this
        exact this
      · intro e
        subst e
        have hl1 : r.length = 1 := by rw [hr4, inv.dS]
        match r, hl1, hr1 with
        | [x], _, hx =>
          simp at hx
          subst hx
          simp [cellOf_vertexOf hS]
      · intro c hc
        have hm := hmem c hc
        obtain ⟨x, y, rfl, hx, hy⟩ := hc.exists_nat
        rw [vertexOf_cast_nat] at hm
        rw [cellValue_cast, hp.marks y x hy hx]
        by_cases hin : y * Width g + x ∈ r.reverse
        · rw [if_pos hin, if_pos (hm.mpr hin)]
        · rw [if_neg hin, if_neg (fun h => hin (hm.mp h))]
      · rw [hp.count]
        simp
      · intro l hl
        rw [hlen]
        exact (hbound l hl).2

theorem ReachedResult.isChain {g : Grid} {S E : FMazeCoordinates} {path : Grid}
    {chain : List FMazeCoordinates} (h : ReachedResult g S E path chain)
    (hp : Passable g S) : IsChain g S E chain := by
  refine ⟨h.head, h.last, h.adjacent, ?_⟩
  intro c hc
  by_cases e : c = S
  · rw [e]; exact hp
  · exact h.passable c hc e

theorem IsChain.start_passable {g : Grid} {S E : FMazeCoordinates}
    {l : List FMazeCoordinates} (h : IsChain g S E l) : Passable g S := by
  obtain ⟨h1, _, _, h4⟩ := h
  cases l with
  | nil => cases h1
  | cons a t =>
    simp at h1
    subst h1
    exact h4 a (List.mem_cons_self _ _)

theorem ReachedResult.last_mem {g : Grid} {S E : FMazeCoordinates} {path : Grid}
    {chain : List FMazeCoordinates} (h : ReachedResult g S E path chain) : E ∈ chain :=
  List.mem_of_getLast?_eq_some h.last

/-- The state that `Randomize` hands to `UpdateMaze`: `PathStart.X` is `0`, `PathStart.Y`
keeps its prior value, and `PathEnd` is the bottom-right corner of the new size. -/
theorem Randomize_endpoints (m : AMaze) (r : RandomDraws) :
    (Randomize m r).PathStart = ⟨0, m.PathStart.Y⟩ ∧
      (Randomize m r).PathEnd
        = ⟨(Randomize m r).MazeSize.X - 1, (Randomize m r).MazeSize.Y - 1⟩ :=
  ⟨rfl, rfl⟩

/-- Claim C1: on a non-empty rectangular grid of fewer than `2^31` cells (the range in
which the `int32` vertex numbers of the source do not overflow) with Start and End inside
it, when End is
reachable from Start through 4-directionally adjacent passable cells, `GetMazePath` sets
`OutLength` to the least number of cells (endpoints included) of a chain of passable cells
from Start to End: some chain has exactly that many cells and no chain has fewer. -/
theorem GetMazePath_length_is_minimal (g : Grid) (S E : FMazeCoordinates) (L : Int)
    (hr : Rectangular g) (hB : Height g * Width g < 2 ^ 31) (hS : InGrid g S)
    (hE : InGrid g E)
    (hreach : ∃ l, IsChain g S E l) :
    ∃ (path : Grid) (len : Int), GetMazePath g S E L = .ok (path, len) ∧
      (∃ l, IsChain g S E l ∧ (l.length : Int) = len) ∧
      ∀ l, IsChain g S E l → len ≤ (l.length : Int) := by
  obtain ⟨l0, hl0⟩ := hreach
  rcases GetMazePath_cases hr hB hS hE L with ⟨_, _, hno⟩ | ⟨path, chain, hres, hrr⟩
  · exact absurd hl0 (hno l0)
  · refine ⟨path, chain.length, hres, ⟨chain, hrr.isChain hl0.start_passable, rfl⟩, ?_⟩
    intro l hl
    exact_mod_cast hrr.shortest l hl

theorem GetMazePath_length_is_minimal_witness :
    ∃ (path : Grid) (len : Int),
      GetMazePath [[1, 1, 1], [1, 0, 1], [1, 1, 1]] ⟨0, 0⟩ ⟨2, 2⟩ 0 = .ok (path, len) ∧
      (∃ l, IsChain [[1, 1, 1], [1, 0, 1], [1, 1, 1]] ⟨0, 0⟩ ⟨2, 2⟩ l ∧
        (l.length : Int) = len) ∧
      ∀ l, IsChain [[1, 1, 1], [1, 0, 1], [1, 1, 1]] ⟨0, 0⟩ ⟨2, 2⟩ l →
        len ≤ (l.length : Int) :=
  GetMazePath_length_is_minimal [[1, 1, 1], [1, 0, 1], [1, 1, 1]] ⟨0, 0⟩ ⟨2, 2⟩ 0
    (by decide) (by decide) (by decide) (by decide)
    ⟨[⟨0, 0⟩, ⟨1, 0⟩, ⟨2, 0⟩, ⟨2, 1⟩, ⟨2, 2⟩], rfl, rfl, by simp [Adjacent4], by decide⟩

/-- Claim C2: on a non-empty rectangular grid of fewer than `2^31` cells (the range in
which the `int32` vertex numbers of the source do not overflow) with passable Start and
End inside it and End
reachable from Start, the cells holding `1` in the returned path grid are exactly the cells
of one chain from Start to End of 4-directionally adjacent passable cells without repeated
cell; the number of marked cells and the number of cells of the chain both equal
`OutLength`, every other cell of the path grid is `0`, and the path grid has the size of
the maze grid. -/
theorem GetMazePath_marks_one_chain (g : Grid) (S E : FMazeCoordinates) (L : Int)
    (hr : Rectangular g) (hB : Height g * Width g < 2 ^ 31) (hS : Passable g S)
    (hE : Passable g E)
    (hreach : ∃ l, IsChain g S E l) :
    ∃ (path : Grid) (len : Int) (chain : List FMazeCoordinates),
      GetMazePath g S E L = .ok (path, len) ∧
      IsChain g S E chain ∧ chain.Nodup ∧
      (∀ c, InGrid g c → cellValue path c = if c ∈ chain then 1 else 0) ∧
      path.length = Height g ∧ (∀ row ∈ path, row.length = Width g) ∧
      (markedCount path : Int) = len ∧ (chain.length : Int) = len := by
  obtain ⟨l0, hl0⟩ := hreach
  rcases GetMazePath_cases hr hB hS.1 hE.1 L with ⟨_, _, hno⟩ | ⟨path, chain, hres, hrr⟩
  · exact absurd hl0 (hno l0)
  · refine ⟨path, chain.length, chain, hres, hrr.isChain hS, hrr.nodup, hrr.pathMarks, hrr.pathRows,
      hrr.pathCols, ?_, rfl⟩
    rw [hrr.pathCount]

theorem GetMazePath_marks_one_chain_witness :
    ∃ (path : Grid) (len : Int) (chain : List FMazeCoordinates),
      GetMazePath [[1, 1, 1], [1, 0, 1], [1, 1, 1]] ⟨0, 0⟩ ⟨2, 2⟩ 0 = .ok (path, len) ∧
      IsChain [[1, 1, 1], [1, 0, 1], [1, 1, 1]] ⟨0, 0⟩ ⟨2, 2⟩ chain ∧ chain.Nodup ∧
      (∀ c, InGrid [[1, 1, 1], [1, 0, 1], [1, 1, 1]] c →
        cellValue path c = if c ∈ chain then 1 else 0) ∧
      path.length = Height [[1, 1, 1], [1, 0, 1], [1, 1, 1]] ∧
      (∀ row ∈ path, row.length = Width [[1, 1, 1], [1, 0, 1], [1, 1, 1]]) ∧
      (markedCount path : Int) = len ∧ (chain.length : Int) = len :=
  GetMazePath_marks_one_chain [[1, 1, 1], [1, 0, 1], [1, 1, 1]] ⟨0, 0⟩ ⟨2, 2⟩ 0
    (by decide) (by decide) (by decide) (by decide)
    ⟨[⟨0, 0⟩, ⟨1, 0⟩, ⟨2, 0⟩, ⟨2, 1⟩, ⟨2, 2⟩], rfl, rfl, by simp [Adjacent4], by decide⟩

/-- Claim C3: on a non-empty rectangular grid of fewer than `2^31` cells (the range in
which the `int32` vertex numbers of the source do not overflow) with Start and End inside
it, when no chain of 4-directionally adjacent passable cells links Start to End and Start
differs from End, `GetMazePath` returns the empty path grid and `OutLength` keeps its
prior value; conversely, whenever such a chain exists the returned grid is not empty, and
the cell of End is marked in it. -/
theorem GetMazePath_unreachable (g : Grid) (S E : FMazeCoordinates) (L : Int)
    (hr : Rectangular g) (hB : Height g * Width g < 2 ^ 31) (hS : InGrid g S)
    (hE : InGrid g E) :
    ((¬ ∃ l, IsChain g S E l) → S ≠ E → GetMazePath g S E L = .ok ([], L)) ∧
    ((∃ l, IsChain g S E l) →
      ∃ (path : Grid) (len : Int), GetMazePath g S E L = .ok (path, len) ∧ path ≠ [] ∧
        cellValue path E = 1) := by
  rcases GetMazePath_cases hr hB hS hE L with ⟨hres, _, hno⟩ | ⟨path, chain, hres, hrr⟩
  · refine ⟨fun _ _ => hres, ?_⟩
    rintro ⟨l, hl⟩
    exact absurd hl (hno l)
  · constructor
    · intro hnone hne
      exact absurd ⟨chain, hrr.isChain (hrr.startPassable hne)⟩ hnone
    · intro _
      refine ⟨path, chain.length, hres, ?_, ?_⟩
      · intro e
        have h1 := hrr.pathRows
        rw [e] at h1
        have h2 := hr.1
        simp at h1
        omega
      · rw [hrr.pathMarks E hE, if_pos hrr.last_mem]

theorem GetMazePath_unreachable_witness :
    Rectangular [[1, 0, 1], [1, 0, 1]] ∧
      Height [[1, 0, 1], [1, 0, 1]] * Width [[1, 0, 1], [1, 0, 1]] < 2 ^ 31 ∧
      InGrid [[1, 0, 1], [1, 0, 1]] ⟨0, 0⟩ ∧
      InGrid [[1, 0, 1], [1, 0, 1]] ⟨2, 1⟩ ∧
      (¬ ∃ l, IsChain [[1, 0, 1], [1, 0, 1]] ⟨0, 0⟩ ⟨2, 1⟩ l) ∧
      (⟨0, 0⟩ : FMazeCoordinates) ≠ ⟨2, 1⟩ ∧
      GetMazePath [[1, 0, 1], [1, 0, 1]] ⟨0, 0⟩ ⟨2, 1⟩ 7 = .ok ([], 7) :=
  have h := GetMazePath_unreachable [[1, 0, 1], [1, 0, 1]] ⟨0, 0⟩ ⟨2, 1⟩ 7
    (by decide) (by decide) (by decide) (by decide)
  have hno : ¬ ∃ l, IsChain [[1, 0, 1], [1, 0, 1]] ⟨0, 0⟩ ⟨2, 1⟩ l := fun hc => by
    obtain ⟨path, len, hres, hne, _⟩ := h.2 hc
    have hrun : GetMazePath [[1, 0, 1], [1, 0, 1]] ⟨0, 0⟩ ⟨2, 1⟩ 7 = .ok ([], 7) := rfl
    rw [hrun] at hres
    cases hres
    exact hne rfl
  ⟨by decide, by decide, by decide, by decide, hno, by decide, h.1 hno (by decide)⟩

/-- Claim C4: on a non-empty rectangular grid of fewer than `2^31` cells (the range in
which the `int32` vertex numbers of the source do not overflow), for every cell `c` inside
the grid,
`GetMazePath` with Start = End = `c` sets `OutLength` to `1` and returns a path grid in
which exactly one cell is marked, namely `c`. -/
theorem GetMazePath_same_cell (g : Grid) (c : FMazeCoordinates) (L : Int)
    (hr : Rectangular g) (hB : Height g * Width g < 2 ^ 31) (hc : InGrid g c) :
    ∃ path : Grid, GetMazePath g c c L = .ok (path, 1) ∧
      (∀ c1, InGrid g c1 → cellValue path c1 = if c1 = c then 1 else 0) ∧
      markedCount path = 1 := by
  rcases GetMazePath_cases hr hB hc hc L with ⟨_, hne, _⟩ | ⟨path, chain, hres, hrr⟩
  · exact absurd rfl hne
  · have hch : chain = [c] := hrr.single rfl
    refine ⟨path, ?_, ?_, ?_⟩
    · rw [hres, hch]; rfl
    · intro c1 hc1
      rw [hrr.pathMarks c1 hc1, hch]
      by_cases e : c1 = c
      · rw [if_pos e, if_pos (by rw [e]; exact List.mem_singleton_self c)]
      · rw [if_neg e, if_neg (by rw [List.mem_singleton]; exact e)]
    · rw [hrr.pathCount, hch]; rfl

theorem GetMazePath_same_cell_witness :
    ∃ path : Grid,
      GetMazePath [[1, 1, 1, 1, 1], [1, 1, 1, 1, 1], [1, 1, 1, 1, 1], [1, 1, 1, 1, 1],
          [1, 1, 1, 1, 1]] ⟨2, 2⟩ ⟨2, 2⟩ 0 = .ok (path, 1) ∧
      (∀ c1, InGrid [[1, 1, 1, 1, 1], [1, 1, 1, 1, 1], [1, 1, 1, 1, 1], [1, 1, 1, 1, 1],
          [1, 1, 1, 1, 1]] c1 → cellValue path c1 = if c1 = ⟨2, 2⟩ then 1 else 0) ∧
      markedCount path = 1 :=
  GetMazePath_same_cell [[1, 1, 1, 1, 1], [1, 1, 1, 1, 1], [1, 1, 1, 1, 1], [1, 1, 1, 1, 1],
    [1, 1, 1, 1, 1]] ⟨2, 2⟩ 0 (by decide) (by decide) (by decide)

/-- Counterexample to claim C5 as stated: on the one-row grid `1 0 1` the cell `(2, 0)` is
not reachable from `(0, 0)`, and the returned path grid has no rows although the maze
grid has one. -/
theorem GetMazePath_dimensions_unreachable_counterexample :
    Rectangular [[1, 0, 1]] ∧ Height [[1, 0, 1]] * Width [[1, 0, 1]] < 2 ^ 31 ∧
      InGrid [[1, 0, 1]] ⟨0, 0⟩ ∧ InGrid [[1, 0, 1]] ⟨2, 0⟩ ∧
      GetMazePath [[1, 0, 1]] ⟨0, 0⟩ ⟨2, 0⟩ 0 = .ok ([], 0) ∧
      ([] : Grid).length ≠ Height [[1, 0, 1]] :=
  ⟨by decide, by decide, by decide, by decide, rfl, by decide⟩

/-- Claim C5, amended: on a non-empty rectangular grid of fewer than `2^31` cells (the
range in which the `int32` vertex numbers of the source do not overflow) with Start and
End inside it,
`GetMazePath` returns a path grid with as many rows as the maze grid and every row as long
as the grid is wide whenever a chain of passable cells links Start to End or Start equals
End; in every other case it returns the grid without rows. -/
theorem GetMazePath_dimensions (g : Grid) (S E : FMazeCoordinates) (L : Int)
    (hr : Rectangular g) (hB : Height g * Width g < 2 ^ 31) (hS : InGrid g S)
    (hE : InGrid g E) :
    ∃ (path : Grid) (len : Int), GetMazePath g S E L = .ok (path, len) ∧
      (((∃ l, IsChain g S E l) ∨ S = E) →
        path.length = Height g ∧ ∀ row ∈ path, row.length = Width g) ∧
      (¬ ((∃ l, IsChain g S E l) ∨ S = E) → path = []) := by
  rcases GetMazePath_cases hr hB hS hE L with ⟨hres, hne, hno⟩ | ⟨path, chain, hres, hrr⟩
  · refine ⟨[], L, hres, ?_, fun _ => rfl⟩
    rintro (⟨l, hl⟩ | e)
    · exact absurd hl (hno l)
    · exact absurd e hne
  · refine ⟨path, chain.length, hres, fun _ => ⟨hrr.pathRows, hrr.pathCols⟩, ?_⟩
    intro hnot
    by_cases e : S = E
    · exact absurd (Or.inr e) hnot
    · exact absurd (Or.inl ⟨chain, hrr.isChain (hrr.startPassable e)⟩) hnot

theorem GetMazePath_dimensions_witness :
    Rectangular [[1, 1], [0, 1], [1, 1]] ∧
      Height [[1, 1], [0, 1], [1, 1]] * Width [[1, 1], [0, 1], [1, 1]] < 2 ^ 31 ∧
      InGrid [[1, 1], [0, 1], [1, 1]] ⟨0, 0⟩ ∧
      InGrid [[1, 1], [0, 1], [1, 1]] ⟨0, 2⟩ ∧
      ∃ (path : Grid) (len : Int),
        GetMazePath [[1, 1], [0, 1], [1, 1]] ⟨0, 0⟩ ⟨0, 2⟩ 0 = .ok (path, len) ∧
        path.length = 3 ∧ ∀ row ∈ path, row.length = 2 := by
  refine ⟨by decide, by decide, by decide, by decide, ?_⟩
  obtain ⟨path, len, hres, hdim, _⟩ :=
    GetMazePath_dimensions [[1, 1], [0, 1], [1, 1]] ⟨0, 0⟩ ⟨0, 2⟩ 0
      (by decide) (by decide) (by decide) (by decide)
  exact ⟨path, len, hres, hdim (Or.inl
    ⟨[⟨0, 0⟩, ⟨1, 0⟩, ⟨1, 1⟩, ⟨1, 2⟩, ⟨0, 2⟩], rfl, rfl, by simp [Adjacent4], by decide⟩)⟩

/-- Claim C6: for a maze size with width and height at least 3 and a coordinate pair with
non-negative components, `ClampByMazeSize` leaves the pair equal to
`(min(X, width - 1), min(Y, height - 1))`; the result lies in
`[0, width - 1] x [0, height - 1]` and a pair already in range is unchanged. -/
theorem ClampByMazeSize_min (c : FMazeCoordinates) (MazeSize : FMazeSize)
    (hw : 3 ≤ MazeSize.X) (hh : 3 ≤ MazeSize.Y) (hx : 0 ≤ c.X) (hy : 0 ≤ c.Y) :
    c.ClampByMazeSize MazeSize = ⟨min c.X (MazeSize.X - 1), min c.Y (MazeSize.Y - 1)⟩ ∧
      (0 ≤ (c.ClampByMazeSize MazeSize).X ∧ (c.ClampByMazeSize MazeSize).X ≤ MazeSize.X - 1 ∧
        0 ≤ (c.ClampByMazeSize MazeSize).Y ∧
        (c.ClampByMazeSize MazeSize).Y ≤ MazeSize.Y - 1) ∧
      (c.X < MazeSize.X → c.Y < MazeSize.Y → c.ClampByMazeSize MazeSize = c) := by
  have key : c.ClampByMazeSize MazeSize
      = ⟨min c.X (MazeSize.X - 1), min c.Y (MazeSize.Y - 1)⟩ := by
    unfold FMazeCoordinates.ClampByMazeSize
    by_cases h1 : c.X ≥ MazeSize.X <;> by_cases h2 : c.Y ≥ MazeSize.Y
    · simp only [h1, h2, if_true]
      rw [min_eq_right (by omega), min_eq_right (by omega)]
    · simp only [h1, h2, if_true, if_false]
      rw [min_eq_right (by omega), min_eq_left (by omega)]
    · simp only [h1, h2, if_true, if_false]
      rw [min_eq_left (by omega), min_eq_right (by omega)]
    · simp only [h1, h2, if_false]
      rw [min_eq_left (by omega), min_eq_left (by omega)]
  refine ⟨key, ?_, ?_⟩
  · rw [key]
    simp only
    refine ⟨?_, ?_, ?_, ?_⟩ <;> omega
  · intro h1 h2
    rw [key, min_eq_left (by omega), min_eq_left (by omega)]

theorem ClampByMazeSize_min_witness :
    (FMazeCoordinates.mk 10 10).ClampByMazeSize ⟨5, 5⟩ = ⟨4, 4⟩ :=
  (ClampByMazeSize_min ⟨10, 10⟩ ⟨5, 5⟩ (by decide) (by decide) (by decide) (by decide)).1

/-- Claim C7, evaluated on the code: from a prior state whose `PathStart` is `(3, 4)`,
with the draws `7`, `9`, `2`, `42`, `Randomize` hands over `PathStart = (0, 4)`, which is
not the top-left corner, while `PathEnd` is the bottom-right corner `(6, 8)` of the new
7 by 9 size. -/
theorem Randomize_leaves_PathStart_Y :
    (Randomize ⟨.Backtracker, 0, ⟨5, 5⟩, ⟨3, 4⟩, ⟨4, 4⟩⟩ ⟨7, 9, 2, 42⟩).PathStart = ⟨0, 4⟩ ∧
      (Randomize ⟨.Backtracker, 0, ⟨5, 5⟩, ⟨3, 4⟩, ⟨4, 4⟩⟩ ⟨7, 9, 2, 42⟩).PathStart
        ≠ ⟨0, 0⟩ ∧
      (Randomize ⟨.Backtracker, 0, ⟨5, 5⟩, ⟨3, 4⟩, ⟨4, 4⟩⟩ ⟨7, 9, 2, 42⟩).MazeSize = ⟨7, 9⟩ ∧
      (Randomize ⟨.Backtracker, 0, ⟨5, 5⟩, ⟨3, 4⟩, ⟨4, 4⟩⟩ ⟨7, 9, 2, 42⟩).PathEnd = ⟨6, 8⟩ :=
  ⟨by decide, by decide, by decide, by decide⟩

theorem adjacent4_symm {a b : FMazeCoordinates} (h : Adjacent4 a b) : Adjacent4 b a := by
  unfold Adjacent4 at h ⊢
  omega

/-- Claim C8: on a non-empty rectangular grid of width `W` and of fewer than `2^31` cells
(the range in which the `int32` vertex numbers of the source do not overflow) the graph
creation succeeds and
the adjacency list has one entry per cell, the entry of cell `(X, Y)` being at row-major
index `Y * W + X`; that entry contains the index of a cell `(X1, Y1)` of the grid exactly
when the two cells are 4-directional neighbours and both are passable, it contains nothing
but indices of cells of the grid, the entry of an impassable cell is empty, and the
relation is symmetric. -/
theorem buildGraph_adjacency (g : Grid) (hr : Rectangular g)
    (hB : Height g * Width g < 2 ^ 31) :
    ∃ Graph : List (List Nat), buildGraph g = .ok Graph ∧
      Graph.length = Height g * Width g ∧
      (∀ X Y X1 Y1 : Nat, X < Width g → Y < Height g → X1 < Width g → Y1 < Height g →
        ((Y1 * Width g + X1) ∈ Graph.getD (Y * Width g + X) [] ↔
          Adjacent4 ⟨X, Y⟩ ⟨X1, Y1⟩ ∧ Passable g ⟨X, Y⟩ ∧ Passable g ⟨X1, Y1⟩)) ∧
      (∀ X Y n : Nat, X < Width g → Y < Height g → n ∈ Graph.getD (Y * Width g + X) [] →
        ∃ X1 Y1 : Nat, X1 < Width g ∧ Y1 < Height g ∧ n = Y1 * Width g + X1) ∧
      (∀ X Y : Nat, X < Width g → Y < Height g → ¬ Passable g ⟨X, Y⟩ →
        Graph.getD (Y * Width g + X) [] = []) ∧
      (∀ u v : Nat, v ∈ Graph.getD u [] → u ∈ Graph.getD v []) := by
  have hcells : ∀ X Y X1 Y1 : Nat, X < Width g → Y < Height g → X1 < Width g →
      Y1 < Height g →
      ((Y1 * Width g + X1) ∈ (graphOf g).getD (Y * Width g + X) [] ↔
        Adjacent4 ⟨X, Y⟩ ⟨X1, Y1⟩ ∧ Passable g ⟨X, Y⟩ ∧ Passable g ⟨X1, Y1⟩) := by
    intro X Y X1 Y1 hX hY hX1 hY1
    have h := edgeOf_cells (g := g) (a := ⟨X, Y⟩) (b := ⟨X1, Y1⟩)
      ((inGrid_cast g X Y).mpr ⟨hX, hY⟩) ((inGrid_cast g X1 Y1).mpr ⟨hX1, hY1⟩)
    rw [vertexOf_cast_nat, vertexOf_cast_nat] at h
    exact h
  have hin : ∀ X Y n : Nat, X < Width g → Y < Height g →
      n ∈ (graphOf g).getD (Y * Width g + X) [] →
      ∃ X1 Y1 : Nat, X1 < Width g ∧ Y1 < Height g ∧ n = Y1 * Width g + X1 := by
    intro X Y n _ _ hn
    have hlt : n < Height g * Width g := edgeOf_adjEntry_lt g hn
    refine ⟨n % Width g, n / Width g, Nat.mod_lt _ hr.2.1,
      (Nat.div_lt_iff_lt_mul hr.2.1).mpr hlt, ?_⟩
    rw [Nat.mul_comm]
    exact (Nat.div_add_mod n (Width g)).symm
  refine ⟨graphOf g, buildGraph_rect hr hB, by simp [graphOf], hcells, hin, ?_, ?_⟩
  · intro X Y hX hY hwall
    apply List.eq_nil_iff_forall_not_mem.mpr
    intro n hn
    obtain ⟨X1, Y1, hX1, hY1, rfl⟩ := hin X Y n hX hY hn
    exact hwall ((hcells X Y X1 Y1 hX hY hX1 hY1).mp hn).2.1
  · intro u v huv
    have h1 := edgeOf_graphOf huv
    have hv : v < Height g * Width g := edgeOf_adjEntry_lt g huv
    have hu : u < Height g * Width g := ((edgeOf_adjEntry g _ _ u v).mp huv).1
    have h2 := (edgeOf_cells (inGrid_cellOf hv) (inGrid_cellOf hu)).mpr
      ⟨adjacent4_symm h1.1, h1.2.2, h1.2.1⟩
    rw [vertexOf_cellOf, vertexOf_cellOf] at h2
    exact h2

theorem buildGraph_adjacency_witness :
    ∃ Graph : List (List Nat), buildGraph [[1, 1], [0, 1]] = .ok Graph ∧
      Graph.length = Height [[1, 1], [0, 1]] * Width [[1, 1], [0, 1]] ∧
      (∀ X Y X1 Y1 : Nat, X < Width [[1, 1], [0, 1]] → Y < Height [[1, 1], [0, 1]] →
        X1 < Width [[1, 1], [0, 1]] → Y1 < Height [[1, 1], [0, 1]] →
        ((Y1 * Width [[1, 1], [0, 1]] + X1)
            ∈ Graph.getD (Y * Width [[1, 1], [0, 1]] + X) [] ↔
          Adjacent4 ⟨X, Y⟩ ⟨X1, Y1⟩ ∧ Passable [[1, 1], [0, 1]] ⟨X, Y⟩ ∧
            Passable [[1, 1], [0, 1]] ⟨X1, Y1⟩)) ∧
      (∀ X Y n : Nat, X < Width [[1, 1], [0, 1]] → Y < Height [[1, 1], [0, 1]] →
        n ∈ Graph.getD (Y * Width [[1, 1], [0, 1]] + X) [] →
        ∃ X1 Y1 : Nat, X1 < Width [[1, 1], [0, 1]] ∧ Y1 < Height [[1, 1], [0, 1]] ∧
          n = Y1 * Width [[1, 1], [0, 1]] + X1) ∧
      (∀ X Y : Nat, X < Width [[1, 1], [0, 1]] → Y < Height [[1, 1], [0, 1]] →
        ¬ Passable [[1, 1], [0, 1]] ⟨X, Y⟩ →
        Graph.getD (Y * Width [[1, 1], [0, 1]] + X) [] = []) ∧
      (∀ u v : Nat, v ∈ Graph.getD u [] → u ∈ Graph.getD v []) :=
  buildGraph_adjacency [[1, 1], [0, 1]] (by decide) (by decide)

/-- Claim C9: on a non-empty rectangular grid of fewer than `2^31` cells (the range in
which the `int32` vertex numbers of the source do not overflow) with Start and End inside
it, every checked array access of `GetMazePath` is within bounds, no `int32` result
overflows and both fuelled loops finish, so the call returns a result; without the
precondition the first access fails, the empty grid making `MazeGrid[0]` out of range. -/
theorem GetMazePath_in_bounds (g : Grid) (S E : FMazeCoordinates) (L : Int)
    (hr : Rectangular g) (hB : Height g * Width g < 2 ^ 31) (hS : InGrid g S)
    (hE : InGrid g E) :
    (∃ res : Grid × Int, GetMazePath g S E L = .ok res) ∧
      GetMazePath [] S E L = .error .outOfRange := by
  refine ⟨?_, rfl⟩
  rcases GetMazePath_cases hr hB hS hE L with ⟨hres, _, _⟩ | ⟨path, chain, hres, _⟩
  · exact ⟨_, hres⟩
  · exact ⟨_, hres⟩

theorem GetMazePath_in_bounds_witness :
    (∃ res : Grid × Int,
        GetMazePath [[1, 1, 1], [0, 0, 1], [1, 1, 1]] ⟨0, 0⟩ ⟨0, 2⟩ 0 = .ok res) ∧
      GetMazePath [] ⟨0, 0⟩ ⟨0, 2⟩ 0 = .error .outOfRange :=
  GetMazePath_in_bounds [[1, 1, 1], [0, 0, 1], [1, 1, 1]] ⟨0, 0⟩ ⟨0, 2⟩ 0
    (by decide) (by decide) (by decide) (by decide)

/-- Claim C10: on a non-empty rectangular grid of fewer than `2^31` cells (the range in
which the `int32` vertex numbers of the source do not overflow) with Start and End inside
it and Start
different from End, when Start or End is an impassable cell `GetMazePath` returns the
empty path grid and `OutLength` keeps its prior value; hence every cell marked in a
non-empty result is passable. -/
theorem GetMazePath_wall_endpoint (g : Grid) (S E : FMazeCoordinates) (L : Int)
    (hr : Rectangular g) (hB : Height g * Width g < 2 ^ 31) (hS : InGrid g S)
    (hE : InGrid g E) (hne : S ≠ E) :
    ((¬ Passable g S ∨ ¬ Passable g E) → GetMazePath g S E L = .ok ([], L)) ∧
      (∀ (path : Grid) (len : Int), GetMazePath g S E L = .ok (path, len) → path ≠ [] →
        ∀ c, InGrid g c → cellValue path c ≠ 0 → Passable g c) := by
  rcases GetMazePath_cases hr hB hS hE L with ⟨hres, _, _⟩ | ⟨path, chain, hres, hrr⟩
  · refine ⟨fun _ => hres, ?_⟩
    intro path len hp hnonempty
    rw [hres] at hp
    cases hp
    exact absurd rfl hnonempty
  · have hch := hrr.isChain (hrr.startPassable hne)
    constructor
    · rintro (h | h)
      · exact absurd (hrr.startPassable hne) h
      · exact absurd (hch.2.2.2 E hrr.last_mem) h
    · intro path1 len hp _ c hc hmark
      rw [hres] at hp
      cases hp
      have hm := hrr.pathMarks c hc
      by_cases hin : c ∈ chain
      · exact hch.2.2.2 c hin
      · rw [if_neg hin] at hm
        exact absurd hm hmark

theorem GetMazePath_wall_endpoint_witness :
    Rectangular [[1, 1, 0]] ∧ Height [[1, 1, 0]] * Width [[1, 1, 0]] < 2 ^ 31 ∧
      InGrid [[1, 1, 0]] ⟨0, 0⟩ ∧ InGrid [[1, 1, 0]] ⟨2, 0⟩ ∧
      (⟨0, 0⟩ : FMazeCoordinates) ≠ ⟨2, 0⟩ ∧ ¬ Passable [[1, 1, 0]] ⟨2, 0⟩ ∧
      GetMazePath [[1, 1, 0]] ⟨0, 0⟩ ⟨2, 0⟩ 5 = .ok ([], 5) :=
  ⟨by decide, by decide, by decide, by decide, by decide, by decide,
    (GetMazePath_wall_endpoint [[1, 1, 0]] ⟨0, 0⟩ ⟨2, 0⟩ 5
      (by decide) (by decide) (by decide) (by decide) (by decide)).1 (Or.inr (by decide))⟩

end MazeGenerator
